import Mathlib

/-!
Verification development for `exaspim-control`
(`src/exaspim_control/exa_spim_acquisition.py`).

The acquisition engine is embedded as executable Lean functions producing
the sequential trace of observable events performed by the code:

* `engineTrace` embeds the per-camera frame-capture loop
  (`ExASPIMAcquisition.engine`, lines 246-312): hardware-trigger
  programming and starts, frame grabs, buffer fills, chunk dispatch
  (DAQ stops, drain wait, double-buffer toggles) and the per-process
  single-slot hand-off.  Every value the Python code reads from a shared
  flag (`done_reading`, `stop_engine`, `new_image`) is supplied by an
  environment `EngEnv`, one observation per read performed.
* `verifyChunks` embeds `_verify_acquisition` (lines 37-49).
* `runTrace` / `sessionTrace` embed the tile-orchestration method `run`
  (lines 51-196).
* `stopAcquisitionTrace` embeds `stop_acquisition` (lines 333-342).
* `engineSetupWriter` embeds the writer-setup block of `engine`
  (lines 204-215).
-/

namespace ExaSpimControl

/-- Kinds of NI-DAQ tasks a device may carry (`ao_task`, `do_task`,
`co_task`); `dig` stands for the digital-output task. -/
inductive TaskKind where
  | ao
  | dig
  | co
  deriving DecidableEq

/-- Observable events of the engine capture loop.  Indices: `b` chunk /
boundary index (`stack_index // chunk_count_px`), `d` DAQ, `w` writer,
`p` process, `si` stack (frame) index.  Events that read a shared flag
record the observed value. -/
inductive Ev where
  /-- control enters the `chunk_index == 0` branch (line 259). -/
  | cycleBegin (b : Nat)
  /-- `daq.co_task.timing.cfg_implicit_timing(..., samps_per_chan=num_pulses)` (line 265). -/
  | cfgTiming (d pulses : Nat)
  /-- `task.start()` for one task of DAQ `d` (line 273). -/
  | startTask (d : Nat) (k : TaskKind)
  /-- `current_frame = camera.grab_frame()` (line 276). -/
  | grab (si : Nat)
  /-- `img_buffer.add_image(current_frame)` for writer `w` (line 281). -/
  | addImage (w si : Nat)
  /-- control enters the chunk-dispatch branch (line 285). -/
  | dispatch (b : Nat)
  /-- `daq.stop()` at a chunk boundary (line 287). -/
  | daqStop (b d : Nat)
  /-- one evaluation of the drain-wait condition (line 288), recording the
  observed `writer.done_reading` (of the last-bound writer) and
  `stop_engine` values. -/
  | pollDone (done stop : Bool)
  /-- `img_buffers[writer_name].toggle_buffers()` (line 299), recording
  writer `w`'s own `done_reading` value at that moment. -/
  | toggle (b w : Nat) (done : Bool)
  /-- `writer.shm_name = ...read_buf_mem_name` (line 301). -/
  | setShm (w : Nat)
  /-- `writer.done_reading.clear()` (line 303). -/
  | clearDone (w : Nat)
  /-- one evaluation of `process.new_image.is_set()` (line 307). -/
  | pollNew (p : Nat) (v : Bool)
  /-- `process.buffer_image[:, :] = current_frame` (line 309). -/
  | writeSlot (p si : Nat)
  /-- `process.new_image.set()` (line 310). -/
  | setNewImage (p : Nat)
  deriving DecidableEq

/-- Static configuration of one `engine` invocation: `steps` =
`tile['steps']`, `ccp` = `self.chunk_count_px`, `nd`/`nw`/`np` = number
of DAQs, writers (for this camera) and processes; `hasAo`/`hasDo` tell
whether DAQ `d`'s `ao_task`/`do_task` is not `None`, `hasPath` whether
writer `w`'s `path` is not `None`. -/
structure EngCfg where
  steps : Nat
  ccp : Nat
  nd : Nat
  nw : Nat
  np : Nat
  hasAo : Nat → Bool
  hasDo : Nat → Bool
  hasPath : Nat → Bool

/-- Values observed at each read of a shared synchronisation primitive.
`stopTop si`: `stop_engine.is_set()` at the top of iteration `si`
(line 255); `donePolls b`: number of drain-wait iterations at boundary
`b` that observed `done_reading` and `stop_engine` both unset;
`doneExit b` / `stopExit b`: the values observed at the final evaluation
of the drain-wait condition (the one on which the loop exits);
`doneTog b w`: writer `w`'s `done_reading` when its buffer is toggled at
boundary `b`; `slotPolls si p`: number of polls of `new_image` that
observed it still set, before the final poll observing it cleared. -/
structure EngEnv where
  stopTop : Nat → Bool
  donePolls : Nat → Nat
  doneExit : Nat → Bool
  stopExit : Nat → Bool
  doneTog : Nat → Nat → Bool
  slotPolls : Nat → Nat → Nat

/-- `chunk_count = math.ceil(tile['steps'] / self.chunk_count_px)`
(line 249); for positive `ccp` the natural-number form
`(steps + ccp - 1) / ccp` is exactly the ceiling of the real division. -/
def chunkCount (steps ccp : Nat) : Nat := (steps + ccp - 1) / ccp

/-- `remainder = steps % ccp; last_chunk_size = ccp if not remainder else
remainder` (lines 250-251). -/
def lastChunkSize (steps ccp : Nat) : Nat :=
  if steps % ccp = 0 then ccp else steps % ccp

/-- `num_pulses` as computed at lines 260-262:
`chunks_filled = math.floor(stack_index / chunk_count_px)`,
`remaining_chunks = chunk_count - chunks_filled`, and
`num_pulses = last_chunk_size if remaining_chunks == 1 else
chunk_count_px`. -/
def numPulses (steps ccp si : Nat) : Nat :=
  if chunkCount steps ccp - si / ccp = 1 then lastChunkSize steps ccp else ccp

/-- Events of the `chunk_index == 0` branch (lines 259-273).  Note the
inner `for daq_id, daq in self.instrument.daqs.items()` loop is nested
inside the outer DAQ loop in the source, so the task-start sweep over
all DAQs is repeated once per DAQ; tasks start in order ao, do, co per
DAQ per sweep. -/
def cycleEvents (cfg : EngCfg) (si : Nat) : List Ev :=
  Ev.cycleBegin (si / cfg.ccp) ::
  (List.range cfg.nd).flatMap (fun d =>
    Ev.cfgTiming d (numPulses cfg.steps cfg.ccp si) ::
    (List.range cfg.nd).flatMap (fun d2 =>
      (if cfg.hasAo d2 then [Ev.startTask d2 TaskKind.ao] else []) ++
      (if cfg.hasDo d2 then [Ev.startTask d2 TaskKind.dig] else []) ++
      [Ev.startTask d2 TaskKind.co]))

/-- Events of the chunk-dispatch branch (lines 285-303): stop every DAQ,
spin on the drain-wait condition, then per writer toggle the double
buffer and, if the writer has a path, hand it the read-side shared
memory name and clear its `done_reading`. -/
def boundaryEvents (cfg : EngCfg) (env : EngEnv) (b : Nat) : List Ev :=
  Ev.dispatch b ::
  ((List.range cfg.nd).map (Ev.daqStop b) ++
   (List.replicate (env.donePolls b) (Ev.pollDone false false) ++
    [Ev.pollDone (env.doneExit b) (env.stopExit b)]) ++
   (List.range cfg.nw).flatMap (fun w =>
     Ev.toggle b w (env.doneTog b w) ::
     (if cfg.hasPath w then [Ev.setShm w, Ev.clearDone w] else [])))

/-- Events of the per-process single-slot hand-off (lines 305-310):
poll `new_image` until it is observed cleared, write the frame into the
shared slot, set `new_image`. -/
def processEvents (cfg : EngCfg) (env : EngEnv) (si : Nat) : List Ev :=
  (List.range cfg.np).flatMap (fun p =>
    List.replicate (env.slotPolls si p) (Ev.pollNew p true) ++
    [Ev.pollNew p false, Ev.writeSlot p si, Ev.setNewImage p])

/-- Events of one iteration of the capture loop body (lines 257-310) at
stack index `si`, after the stop check of line 255 passed. -/
def frameEvents (cfg : EngCfg) (env : EngEnv) (si : Nat) : List Ev :=
  (if si % cfg.ccp = 0 then cycleEvents cfg si else []) ++
  Ev.grab si ::
  (List.range cfg.nw).map (fun w => Ev.addImage w si) ++
  (if si % cfg.ccp + 1 = cfg.ccp ∨ si = cfg.steps - 1 then
    boundaryEvents cfg env (si / cfg.ccp) else []) ++
  processEvents cfg env si

/-- Trace of the capture loop (lines 254-312): iterate stack indices in
order, breaking at the first one where `stop_engine` is observed set at
the top of the iteration. -/
def engineTrace (cfg : EngCfg) (env : EngEnv) : List Ev :=
  ((List.range cfg.steps).takeWhile (fun si => !env.stopTop si)).flatMap
    (frameEvents cfg env)

/-! ### Generic trace checkers

`traceAll step ok s tr` walks a trace with a running state, checking
`ok` at every event; `traceCollect step out s tr` collects outputs. -/

def traceAll {σ α : Type} (step : σ → α → σ) (ok : σ → α → Bool) :
    σ → List α → Bool
  | _, [] => true
  | s, e :: r => ok s e && traceAll step ok (step s e) r

def traceCollect {σ α β : Type} (step : σ → α → σ) (out : σ → α → List β) :
    σ → List α → List β
  | _, [] => []
  | s, e :: r => out s e ++ traceCollect step out (step s e) r

theorem traceAll_append {σ α : Type} (step : σ → α → σ) (ok : σ → α → Bool)
    (l r : List α) (s : σ) :
    traceAll step ok s (l ++ r) =
      (traceAll step ok s l && traceAll step ok (l.foldl step s) r) := by
  induction l generalizing s with
  | nil => simp [traceAll]
  | cons e t ih => simp [traceAll, ih, Bool.and_assoc]

theorem traceAll_cons {σ α : Type} (step : σ → α → σ) (ok : σ → α → Bool)
    (s : σ) (e : α) (r : List α) :
    traceAll step ok s (e :: r) = (ok s e && traceAll step ok (step s e) r) :=
  rfl

theorem traceCollect_append {σ α β : Type} (step : σ → α → σ)
    (out : σ → α → List β) (l r : List α) (s : σ) :
    traceCollect step out s (l ++ r) =
      traceCollect step out s l ++ traceCollect step out (l.foldl step s) r := by
  induction l generalizing s with
  | nil => simp [traceCollect]
  | cons e t ih => simp [traceCollect, ih]

theorem traceAll_of_ok {σ α : Type} (step : σ → α → σ) (ok : σ → α → Bool)
    (l : List α) (h : ∀ s e, e ∈ l → ok s e = true) :
    ∀ s, traceAll step ok s l = true := by
  induction l with
  | nil => intro s; rfl
  | cons e t ih =>
    intro s
    simp only [traceAll, Bool.and_eq_true]
    exact ⟨h s e (List.mem_cons_self e t),
      ih (fun s' e' he' => h s' e' (List.mem_cons_of_mem e he')) (step s e)⟩

/-- Folding a neutral segment (events that neither change the state nor
emit output) through `traceCollect` leaves state and output unchanged. -/
theorem traceCollect_neutral {σ α β : Type} (step : σ → α → σ)
    (out : σ → α → List β) (l : List α)
    (h : ∀ e, e ∈ l → (∀ s, step s e = s) ∧ (∀ s, out s e = [])) :
    ∀ s r, traceCollect step out s (l ++ r) = traceCollect step out s r := by
  induction l with
  | nil => intro s r; rfl
  | cons e t ih =>
    intro s r
    have he := h e (List.mem_cons_self e t)
    simp only [List.cons_append, traceCollect, he.1, he.2,
      List.nil_append]
    exact ih (fun e' he' => h e' (List.mem_cons_of_mem e he')) s r

theorem foldl_neutral {σ α : Type} (step : σ → α → σ) (l : List α)
    (h : ∀ e, e ∈ l → ∀ s, step s e = s) :
    ∀ s, l.foldl step s = s := by
  induction l with
  | nil => intro s; rfl
  | cons e t ih =>
    intro s
    simp only [List.foldl_cons, h e (List.mem_cons_self e t)]
    exact ih (fun e' he' => h e' (List.mem_cons_of_mem e he')) s

/-! ### Derived observations on engine traces -/

/-- Running frame count of the chunk being filled: `add_image` grows it,
entering the dispatch branch resets it. -/
def dsStep : Nat → Ev → Nat
  | c, Ev.grab _ => c + 1
  | _, Ev.dispatch _ => 0
  | c, _ => c

/-- At each dispatch, emit the number of frames handed off. -/
def dsOut : Nat → Ev → List Nat
  | c, Ev.dispatch _ => [c]
  | _, _ => []

/-- Sizes (frame counts) of the chunks dispatched along a trace, in
order. -/
def dispatchSizes (tr : List Ev) : List Nat := traceCollect dsStep dsOut 0 tr

/-- The pulse count carried by a `cfg_implicit_timing` call. -/
def getPulse : Ev → Option Nat
  | Ev.cfgTiming _ p => some p
  | _ => none

/-- Pulse counts programmed along a trace, in order (one entry per
`cfg_implicit_timing` call). -/
def pulseList (tr : List Ev) : List Nat := tr.filterMap getPulse

/-- Running set of DAQs having at least one started task: `task.start()`
marks the DAQ running, `daq.stop()` stops all of its tasks. -/
def runningStep : List Nat → Ev → List Nat
  | s, Ev.startTask d _ => d :: s
  | s, Ev.daqStop _ d => s.filter (fun x => x ≠ d)
  | s, _ => s

/-- A buffer toggle is safe only when no DAQ has a running task. -/
def toggleOk : List Nat → Ev → Bool
  | s, Ev.toggle _ _ _ => s.isEmpty
  | _, _ => true

/-- Every buffer toggle in the trace happens while no trigger task is
running. -/
def togglesSafe (tr : List Ev) : Bool := traceAll runningStep toggleOk [] tr

/-- Has a counter-output (pulse-train) task been started since the
current trigger cycle began? -/
def coSeenStep : Bool → Ev → Bool
  | _, Ev.cycleBegin _ => false
  | _, Ev.startTask _ TaskKind.co => true
  | s, _ => s

/-- No analog- or digital-output task start may follow a pulse-train
start within the same trigger cycle. -/
def coLastOk : Bool → Ev → Bool
  | s, Ev.startTask _ TaskKind.ao => !s
  | s, Ev.startTask _ TaskKind.dig => !s
  | _, _ => true

/-- In every trigger cycle of the trace, the pulse-train (co) task
starts strictly after all ao/do task starts of that cycle. -/
def coLastSafe (tr : List Ev) : Bool := traceAll coSeenStep coLastOk false tr

/-- Previous event of the trace (for adjacency checks). -/
def prevStep : Option Ev → Ev → Option Ev := fun _ e => some e

/-- A slot write must immediately follow a poll observing `new_image`
cleared, and must be immediately followed by `new_image.set()`. -/
def slotOk : Option Ev → Ev → Bool
  | s, Ev.writeSlot p _ => s == some (Ev.pollNew p false)
  | some (Ev.writeSlot p _), e => e == Ev.setNewImage p
  | _, _ => true

/-- Processes whose `new_image` the engine has set and not since
observed cleared. -/
def pendingStep : List Nat → Ev → List Nat
  | s, Ev.setNewImage p => p :: s
  | s, Ev.pollNew p false => s.filter (fun x => x ≠ p)
  | s, _ => s

/-- A slot write is allowed only if the engine last observed that
process's `new_image` cleared after last setting it. -/
def pendingOk : List Nat → Ev → Bool
  | s, Ev.writeSlot p _ => !(s.contains p)
  | _, _ => true

/-- The full single-slot hand-off protocol: every slot write is bracketed
by a cleared-observation and a set, and never overwrites a slot whose
`new_image` is still set (as last observed by the engine). -/
def slotProtocolSafe (tr : List Ev) : Bool :=
  traceAll prevStep slotOk none tr &&
  (match tr.foldl prevStep none with
   | some (Ev.writeSlot _ _) => false
   | _ => true) &&
  traceAll pendingStep pendingOk [] tr

/-! ### Shape lemmas for the engine trace segments -/

theorem cycleEvents_shape (cfg : EngCfg) (si : Nat) :
    ∀ e ∈ cycleEvents cfg si,
      e = Ev.cycleBegin (si / cfg.ccp) ∨
      (∃ d, d < cfg.nd ∧ e = Ev.cfgTiming d (numPulses cfg.steps cfg.ccp si)) ∨
      (∃ d, d < cfg.nd ∧ ∃ k, e = Ev.startTask d k) := by
  intro e he
  simp only [cycleEvents, List.mem_cons, List.mem_flatMap, List.mem_range,
    List.mem_append, List.mem_ite_nil_right, List.mem_singleton,
    List.not_mem_nil, or_false] at he
  rcases he with rfl | ⟨d, hd, he⟩
  · exact Or.inl rfl
  rcases he with rfl | ⟨d2, hd2, he⟩
  · exact Or.inr (Or.inl ⟨d, hd, rfl⟩)
  rcases he with (⟨_, rfl⟩ | ⟨_, rfl⟩) | rfl
  · exact Or.inr (Or.inr ⟨d2, hd2, TaskKind.ao, rfl⟩)
  · exact Or.inr (Or.inr ⟨d2, hd2, TaskKind.dig, rfl⟩)
  · exact Or.inr (Or.inr ⟨d2, hd2, TaskKind.co, rfl⟩)

theorem boundaryEvents_shape (cfg : EngCfg) (env : EngEnv) (b : Nat) :
    ∀ e ∈ boundaryEvents cfg env b,
      e = Ev.dispatch b ∨
      (∃ d, d < cfg.nd ∧ e = Ev.daqStop b d) ∨
      (∃ x y, e = Ev.pollDone x y) ∨
      (∃ w, w < cfg.nw ∧ e = Ev.toggle b w (env.doneTog b w)) ∨
      (∃ w, w < cfg.nw ∧ (e = Ev.setShm w ∨ e = Ev.clearDone w)) := by
  intro e he
  simp only [boundaryEvents, List.mem_cons, List.mem_append, List.mem_map,
    List.mem_flatMap, List.mem_range, List.mem_replicate,
    List.mem_ite_nil_right, List.mem_singleton, List.not_mem_nil,
    or_false] at he
  rcases he with rfl | he
  · exact Or.inl rfl
  rcases he with (⟨d, hd, rfl⟩ | (⟨_, rfl⟩ | rfl)) | ⟨w, hw, he⟩
  · exact Or.inr (Or.inl ⟨d, hd, rfl⟩)
  · exact Or.inr (Or.inr (Or.inl ⟨false, false, rfl⟩))
  · exact Or.inr (Or.inr (Or.inl ⟨_, _, rfl⟩))
  rcases he with rfl | ⟨_, rfl | rfl⟩
  · exact Or.inr (Or.inr (Or.inr (Or.inl ⟨w, hw, rfl⟩)))
  · exact Or.inr (Or.inr (Or.inr (Or.inr ⟨w, hw, Or.inl rfl⟩)))
  · exact Or.inr (Or.inr (Or.inr (Or.inr ⟨w, hw, Or.inr rfl⟩)))

theorem processEvents_shape (cfg : EngCfg) (env : EngEnv) (si : Nat) :
    ∀ e ∈ processEvents cfg env si,
      ∃ p, p < cfg.np ∧
        (e = Ev.pollNew p true ∨ e = Ev.pollNew p false ∨
         e = Ev.writeSlot p si ∨ e = Ev.setNewImage p) := by
  intro e he
  simp only [processEvents, List.mem_flatMap, List.mem_range, List.mem_append,
    List.mem_replicate, List.mem_cons, List.not_mem_nil, or_false] at he
  rcases he with ⟨p, hp, he⟩
  rcases he with ⟨_, rfl⟩ | rfl | rfl | rfl
  · exact ⟨p, hp, Or.inl rfl⟩
  · exact ⟨p, hp, Or.inr (Or.inl rfl)⟩
  · exact ⟨p, hp, Or.inr (Or.inr (Or.inl rfl))⟩
  · exact ⟨p, hp, Or.inr (Or.inr (Or.inr rfl))⟩

theorem foldl_inv {σ α : Type} (step : σ → α → σ) (P : σ → Prop)
    (l : List α) (h : ∀ s e, e ∈ l → P s → P (step s e)) :
    ∀ s, P s → P (l.foldl step s) := by
  induction l with
  | nil => intro s hs; exact hs
  | cons e t ih =>
    intro s hs
    exact ih (fun s' e' he' => h s' e' (List.mem_cons_of_mem e he'))
      (step s e) (h s e (List.mem_cons_self e t) hs)

/-! ### Claim C5: trigger hardware is stopped before every buffer toggle -/

theorem daqStops_foldl (b : Nat) (ds : List Nat) :
    ∀ s : List Nat, (∀ x ∈ s, x ∈ ds) →
      ((ds.map (Ev.daqStop b)).foldl runningStep s) = [] := by
  induction ds with
  | nil =>
    intro s hs
    exact List.eq_nil_iff_forall_not_mem.mpr
      (fun x hx => (List.not_mem_nil x) (hs x hx))
  | cons d t ih =>
    intro s hs
    simp only [List.map_cons, List.foldl_cons]
    show ((t.map (Ev.daqStop b)).foldl runningStep
      (s.filter (fun x => decide (x ≠ d)))) = []
    refine ih _ (fun x hx => ?_)
    rw [List.mem_filter] at hx
    have hxd : x ≠ d := by simpa using hx.2
    rcases List.mem_cons.mp (hs x hx.1) with rfl | h
    · exact absurd rfl hxd
    · exact h

theorem toggleOk_of_shape {s : List Nat} {e : Ev}
    (h : ∀ b w fl, e ≠ Ev.toggle b w fl) : toggleOk s e = true := by
  cases e <;> first
    | rfl
    | exact absurd rfl (h _ _ _)

theorem traceAll_of_fixed {σ α : Type} (step : σ → α → σ)
    (ok : σ → α → Bool) (s : σ) (l : List α)
    (hstep : ∀ e ∈ l, step s e = s) (hok : ∀ e ∈ l, ok s e = true) :
    traceAll step ok s l = true ∧ l.foldl step s = s := by
  induction l with
  | nil => exact ⟨rfl, rfl⟩
  | cons e t ih =>
    have h1 := hstep e (List.mem_cons_self e t)
    have h2 := hok e (List.mem_cons_self e t)
    have ih' := ih (fun e' he' => hstep e' (List.mem_cons_of_mem e he'))
      (fun e' he' => hok e' (List.mem_cons_of_mem e he'))
    refine ⟨?_, ?_⟩
    · rw [traceAll_cons, h1, h2, ih'.1]
      rfl
    · rw [List.foldl_cons, h1, ih'.2]

theorem toggleSeg_shape (cfg : EngCfg) (env : EngEnv) (b : Nat)
    (ws : List Nat) :
    ∀ e ∈ ws.flatMap (fun w =>
        Ev.toggle b w (env.doneTog b w) ::
        (if cfg.hasPath w then [Ev.setShm w, Ev.clearDone w] else [])),
      ∃ w, e = Ev.toggle b w (env.doneTog b w) ∨ e = Ev.setShm w ∨
        e = Ev.clearDone w := by
  intro e he
  simp only [List.mem_flatMap, List.mem_cons, List.mem_ite_nil_right,
    List.not_mem_nil, or_false] at he
  obtain ⟨w, _, he⟩ := he
  rcases he with rfl | ⟨_, rfl | rfl⟩
  · exact ⟨w, Or.inl rfl⟩
  · exact ⟨w, Or.inr (Or.inl rfl)⟩
  · exact ⟨w, Or.inr (Or.inr rfl)⟩

theorem runningStep_toggles (cfg : EngCfg) (env : EngEnv) (b : Nat)
    (ws : List Nat) :
    traceAll runningStep toggleOk []
        (ws.flatMap (fun w =>
          Ev.toggle b w (env.doneTog b w) ::
          (if cfg.hasPath w then [Ev.setShm w, Ev.clearDone w] else []))) = true ∧
      (ws.flatMap (fun w =>
          Ev.toggle b w (env.doneTog b w) ::
          (if cfg.hasPath w then [Ev.setShm w, Ev.clearDone w] else []))).foldl
        runningStep [] = [] := by
  refine traceAll_of_fixed _ _ _ _ (fun e he => ?_) (fun e he => ?_) <;>
    rcases toggleSeg_shape cfg env b ws e he with ⟨w, rfl | rfl | rfl⟩ <;> rfl

theorem ts_cycle (cfg : EngCfg) (si : Nat) :
    ∀ s : List Nat, (∀ x ∈ s, x < cfg.nd) →
      traceAll runningStep toggleOk s (cycleEvents cfg si) = true ∧
      (∀ x ∈ (cycleEvents cfg si).foldl runningStep s, x < cfg.nd) := by
  intro s hs
  constructor
  · refine traceAll_of_ok _ _ _ (fun s' e he => ?_) s
    rcases cycleEvents_shape cfg si e he with rfl | ⟨d, _, rfl⟩ | ⟨d, _, k, rfl⟩
      <;> rfl
  · refine foldl_inv runningStep (fun s' => ∀ x ∈ s', x < cfg.nd)
      _ (fun s' e he hs' => ?_) s hs
    rcases cycleEvents_shape cfg si e he with rfl | ⟨d, _, rfl⟩ | ⟨d, hd, k, rfl⟩
    · exact hs'
    · exact hs'
    · intro x hx
      rcases List.mem_cons.mp hx with rfl | hx
      · exact hd
      · exact hs' x hx

theorem ts_boundary (cfg : EngCfg) (env : EngEnv) (b : Nat) :
    ∀ s : List Nat, (∀ x ∈ s, x < cfg.nd) →
      traceAll runningStep toggleOk s (boundaryEvents cfg env b) = true ∧
      (boundaryEvents cfg env b).foldl runningStep s = [] := by
  intro s hs
  have hstops : ((List.range cfg.nd).map (Ev.daqStop b)).foldl runningStep s
      = [] :=
    daqStops_foldl b (List.range cfg.nd) s
      (fun x hx => List.mem_range.mpr (hs x hx))
  have hpolls :
      (List.replicate (env.donePolls b) (Ev.pollDone false false) ++
        [Ev.pollDone (env.doneExit b) (env.stopExit b)]).foldl runningStep
        ([] : List Nat) = [] := by
    refine foldl_neutral _ _ (fun e he s'' => ?_) []
    simp only [List.mem_append, List.mem_replicate, List.mem_singleton] at he
    rcases he with ⟨_, rfl⟩ | rfl <;> rfl
  have hstopsAll : traceAll runningStep toggleOk s
      ((List.range cfg.nd).map (Ev.daqStop b)) = true := by
    refine traceAll_of_ok _ _ _ (fun s' e he => ?_) s
    simp only [List.mem_map] at he
    obtain ⟨d, _, rfl⟩ := he
    rfl
  have hpollsAll : traceAll runningStep toggleOk ([] : List Nat)
      (List.replicate (env.donePolls b) (Ev.pollDone false false) ++
        [Ev.pollDone (env.doneExit b) (env.stopExit b)]) = true := by
    refine traceAll_of_ok _ _ _ (fun s' e he => ?_) []
    simp only [List.mem_append, List.mem_replicate, List.mem_singleton] at he
    rcases he with ⟨_, rfl⟩ | rfl <;> rfl
  have htog := runningStep_toggles cfg env b (List.range cfg.nw)
  have hdisp : runningStep s (Ev.dispatch b) = s := rfl
  constructor
  · rw [boundaryEvents, traceAll_cons, hdisp, traceAll_append,
      traceAll_append, List.foldl_append, hstops, hpolls, hstopsAll,
      hpollsAll, htog.1]
    rfl
  · rw [boundaryEvents, List.foldl_cons, hdisp, List.foldl_append,
      List.foldl_append, hstops, hpolls, htog.2]

theorem ts_frame (cfg : EngCfg) (env : EngEnv) (si : Nat) :
    ∀ s : List Nat, (∀ x ∈ s, x < cfg.nd) →
      traceAll runningStep toggleOk s (frameEvents cfg env si) = true ∧
      (∀ x ∈ (frameEvents cfg env si).foldl runningStep s, x < cfg.nd) := by
  intro s hs
  have hC : traceAll runningStep toggleOk s
      (if si % cfg.ccp = 0 then cycleEvents cfg si else []) = true ∧
      (∀ x ∈ (if si % cfg.ccp = 0 then cycleEvents cfg si else []).foldl
        runningStep s, x < cfg.nd) := by
    split
    · exact ts_cycle cfg si s hs
    · exact ⟨rfl, hs⟩
  have hM : ∀ s' : List Nat, traceAll runningStep toggleOk s'
      ((List.range cfg.nw).map (fun w => Ev.addImage w si)) = true ∧
      ((List.range cfg.nw).map (fun w => Ev.addImage w si)).foldl
        runningStep s' = s' := by
    intro s'
    refine traceAll_of_fixed _ _ _ _ (fun e he => ?_) (fun e he => ?_) <;>
      · simp only [List.mem_map] at he
        obtain ⟨w, _, rfl⟩ := he
        rfl
  have hB : ∀ s' : List Nat, (∀ x ∈ s', x < cfg.nd) →
      traceAll runningStep toggleOk s'
        (if si % cfg.ccp + 1 = cfg.ccp ∨ si = cfg.steps - 1 then
          boundaryEvents cfg env (si / cfg.ccp) else []) = true ∧
      (∀ x ∈ (if si % cfg.ccp + 1 = cfg.ccp ∨ si = cfg.steps - 1 then
          boundaryEvents cfg env (si / cfg.ccp) else []).foldl runningStep s',
        x < cfg.nd) := by
    intro s' hs'
    split
    · obtain ⟨h1, h2⟩ := ts_boundary cfg env (si / cfg.ccp) s' hs'
      refine ⟨h1, ?_⟩
      rw [h2]
      intro x hx
      exact absurd hx (List.not_mem_nil x)
    · exact ⟨rfl, hs'⟩
  have hP : ∀ s' : List Nat, traceAll runningStep toggleOk s'
      (processEvents cfg env si) = true ∧
      (processEvents cfg env si).foldl runningStep s' = s' := by
    intro s'
    refine traceAll_of_fixed _ _ _ _ (fun e he => ?_) (fun e he => ?_) <;>
      rcases processEvents_shape cfg env si e he with
        ⟨p, _, rfl | rfl | rfl | rfl⟩ <;> rfl
  have hXall : ∀ s' : List Nat, traceAll runningStep toggleOk s'
      (Ev.grab si :: (List.range cfg.nw).map (fun w => Ev.addImage w si))
      = true := fun s' => (hM s').1
  have hXfold : ∀ s' : List Nat,
      (Ev.grab si :: (List.range cfg.nw).map (fun w => Ev.addImage w si)).foldl
        runningStep s' = s' := fun s' => (hM s').2
  constructor
  · rw [frameEvents, traceAll_append, traceAll_append, traceAll_append,
      List.foldl_append, List.foldl_append, hXfold]
    rw [hC.1, hXall, (hB _ hC.2).1, (hP _).1]
    rfl
  · rw [frameEvents, List.foldl_append, List.foldl_append, List.foldl_append,
      hXfold, (hP _).2]
    exact (hB _ hC.2).2

/-- C5 helper: the toggle-safety checker passes over any flat list of
frame bodies. -/
theorem ts_frames (cfg : EngCfg) (env : EngEnv) (l : List Nat) :
    ∀ s : List Nat, (∀ x ∈ s, x < cfg.nd) →
      traceAll runningStep toggleOk s (l.flatMap (frameEvents cfg env))
        = true := by
  induction l with
  | nil => intro s _; rfl
  | cons si t ih =>
    intro s hs
    rw [List.flatMap_cons, traceAll_append]
    obtain ⟨h1, h2⟩ := ts_frame cfg env si s hs
    rw [h1, ih _ h2]
    rfl

/-- C5: at every chunk boundary of every tile, the engine stops every DAQ
before any double buffer is toggled for that boundary: along every trace
of the capture loop (any configuration, any observed flag values), every
`toggle_buffers` call occurs in a state in which no DAQ trigger task is
running. -/
theorem claim5_trigger_stopped_before_toggle (cfg : EngCfg) (env : EngEnv) :
    togglesSafe (engineTrace cfg env) = true := by
  rw [togglesSafe, engineTrace]
  exact ts_frames cfg env _ [] (fun x hx => absurd hx (List.not_mem_nil x))

/-! ### Claim C6: the pulse-train (master clock) task starts last -/

theorem cl_cycle (cfg : EngCfg) (si : Nat) (h1 : cfg.nd = 1) :
    ∀ s : Bool, traceAll coSeenStep coLastOk s (cycleEvents cfg si) = true := by
  intro s
  have hr : List.range 1 = [0] := rfl
  simp only [cycleEvents, h1, hr, List.flatMap_cons, List.flatMap_nil,
    List.append_nil]
  cases ha : cfg.hasAo 0 <;> cases hd : cfg.hasDo 0 <;>
    simp [traceAll, coSeenStep, coLastOk, ha, hd]

theorem cl_frame (cfg : EngCfg) (env : EngEnv) (si : Nat) (h1 : cfg.nd = 1) :
    ∀ s : Bool, traceAll coSeenStep coLastOk s (frameEvents cfg env si)
      = true := by
  intro s
  have hC : ∀ s' : Bool, traceAll coSeenStep coLastOk s'
      (if si % cfg.ccp = 0 then cycleEvents cfg si else []) = true := by
    intro s'
    split
    · exact cl_cycle cfg si h1 s'
    · rfl
  have hX : ∀ s' : Bool, traceAll coSeenStep coLastOk s'
      (Ev.grab si :: (List.range cfg.nw).map (fun w => Ev.addImage w si))
      = true := by
    intro s'
    refine traceAll_of_ok _ _ _ (fun s'' e he => ?_) s'
    rcases List.mem_cons.mp he with rfl | he
    · rfl
    · simp only [List.mem_map] at he
      obtain ⟨w, _, rfl⟩ := he
      rfl
  have hB : ∀ s' : Bool, traceAll coSeenStep coLastOk s'
      (if si % cfg.ccp + 1 = cfg.ccp ∨ si = cfg.steps - 1 then
        boundaryEvents cfg env (si / cfg.ccp) else []) = true := by
    intro s'
    split
    · refine traceAll_of_ok _ _ _ (fun s'' e he => ?_) s'
      rcases boundaryEvents_shape cfg env (si / cfg.ccp) e he with
        rfl | ⟨d, _, rfl⟩ | ⟨x, y, rfl⟩ | ⟨w, _, rfl⟩ | ⟨w, _, rfl | rfl⟩ <;>
        rfl
    · rfl
  have hP : ∀ s' : Bool, traceAll coSeenStep coLastOk s'
      (processEvents cfg env si) = true := by
    intro s'
    refine traceAll_of_ok _ _ _ (fun s'' e he => ?_) s'
    rcases processEvents_shape cfg env si e he with
      ⟨p, _, rfl | rfl | rfl | rfl⟩ <;> rfl
  rw [frameEvents, traceAll_append, traceAll_append, traceAll_append,
    hC, hX, hB, hP]
  rfl

theorem cl_frames (cfg : EngCfg) (env : EngEnv) (h1 : cfg.nd = 1)
    (l : List Nat) :
    ∀ s : Bool, traceAll coSeenStep coLastOk s (l.flatMap (frameEvents cfg env))
      = true := by
  induction l with
  | nil => intro s; rfl
  | cons si t ih =>
    intro s
    rw [List.flatMap_cons, traceAll_append, cl_frame cfg env si h1, ih]
    rfl

/-- A single-frame, two-DAQ configuration: the nested task-start loop of
lines 269-273 starts DAQ 0's co task and then DAQ 1's ao/do tasks after
it, in the same trigger cycle. -/
def twoDaqCfg : EngCfg :=
  { steps := 1, ccp := 1, nd := 2, nw := 1, np := 0,
    hasAo := fun _ => true, hasDo := fun _ => true,
    hasPath := fun _ => true }

/-- An environment in which no stop is requested, every drain wait exits
at once with `done_reading` observed set, and every process slot poll
finds the slot free at once. -/
def quietEnv : EngEnv :=
  { stopTop := fun _ => false, donePolls := fun _ => 0,
    doneExit := fun _ => true, stopExit := fun _ => false,
    doneTog := fun _ _ => true, slotPolls := fun _ _ => 0 }

/-- C6 counterexample: with two DAQs the claim fails as stated: in the
very first trigger cycle a counter-output (pulse-train) start is
followed by analog/digital-output starts of the other DAQ, so the
pulse-train start is not the last start call of the cycle. -/
theorem claim6_counterexample :
    coLastSafe (engineTrace twoDaqCfg quietEnv) = false := by decide

/-- C6 (amended): for a single-DAQ configuration, in every trigger cycle
the counter-output pulse-train task is started only after the
analog-output and digital-output tasks of the cycle; no ao/do start
follows a co start within a trigger cycle. -/
theorem claim6_co_task_starts_last (cfg : EngCfg) (env : EngEnv)
    (h1 : cfg.nd = 1) : coLastSafe (engineTrace cfg env) = true := by
  rw [coLastSafe, engineTrace]
  exact cl_frames cfg env h1 _ false

/-- A single-DAQ configuration matching the deployed exaspim instrument. -/
def oneDaqCfg : EngCfg :=
  { steps := 10, ccp := 4, nd := 1, nw := 1, np := 1,
    hasAo := fun _ => true, hasDo := fun _ => true,
    hasPath := fun _ => true }

/-- C6 witness: the amended theorem applied to the single-DAQ
configuration. -/
theorem claim6_co_task_starts_last_witness :
    oneDaqCfg.nd = 1 ∧ coLastSafe (engineTrace oneDaqCfg quietEnv) = true :=
  ⟨rfl, claim6_co_task_starts_last oneDaqCfg quietEnv rfl⟩

/-! ### Claim C9: the single-slot process hand-off protocol -/

theorem prevStep_apply (s : Option Ev) (e : Ev) : prevStep s e = some e := rfl

theorem slotOk_clean {s : Option Ev} {e : Ev}
    (hs : ∀ p si, s ≠ some (Ev.writeSlot p si))
    (he : ∀ p si, e ≠ Ev.writeSlot p si) : slotOk s e = true := by
  rcases s with _ | se
  · cases e <;> first
      | rfl
      | exact absurd rfl (he _ _)
  · cases se <;> cases e <;> first
      | rfl
      | exact absurd rfl (he _ _)
      | exact absurd rfl (hs _ _)

/-- A segment with no slot-write events passes the adjacency checker and
leaves a non-slot-write previous event (or the incoming one). -/
theorem slot_seg_clean (l : List Ev)
    (hl : ∀ e ∈ l, ∀ p si, e ≠ Ev.writeSlot p si) :
    ∀ s : Option Ev, (∀ p si, s ≠ some (Ev.writeSlot p si)) →
      traceAll prevStep slotOk s l = true ∧
      (∀ p si, l.foldl prevStep s ≠ some (Ev.writeSlot p si)) := by
  induction l with
  | nil => exact fun s hs => ⟨rfl, hs⟩
  | cons e t ih =>
    intro s hs
    have he := hl e (List.mem_cons_self e t)
    have ih' := ih (fun e' he' => hl e' (List.mem_cons_of_mem e he'))
      (some e) (fun p si h => he p si (Option.some.inj h))
    refine ⟨?_, ?_⟩
    · rw [traceAll_cons, slotOk_clean hs he, prevStep_apply, ih'.1]
      rfl
    · intro p si
      rw [List.foldl_cons, prevStep_apply]
      exact ih'.2 p si

theorem contains_filter_self (s : List Nat) (p : Nat) :
    ((s.filter (fun x => decide (x ≠ p))).contains p) = false := by
  induction s with
  | nil => rfl
  | cons x t ih =>
    by_cases hx : x = p
    · simp [List.filter_cons, hx, ih]
    · simp [List.filter_cons, List.contains_cons, hx, ih, Ne.symm hx]

/-- One process's slot hand-off passes the adjacency checker. -/
theorem slot_one_process (p si k : Nat) :
    ∀ s : Option Ev, (∀ q sj, s ≠ some (Ev.writeSlot q sj)) →
      traceAll prevStep slotOk s
        (List.replicate k (Ev.pollNew p true) ++
          [Ev.pollNew p false, Ev.writeSlot p si, Ev.setNewImage p]) = true ∧
      (∀ q sj,
        (List.replicate k (Ev.pollNew p true) ++
          [Ev.pollNew p false, Ev.writeSlot p si, Ev.setNewImage p]).foldl
          prevStep s ≠ some (Ev.writeSlot q sj)) := by
  induction k with
  | zero =>
    intro s hs
    constructor
    · rw [List.replicate_zero, List.nil_append, traceAll_cons,
        slotOk_clean hs (fun q sj h => Ev.noConfusion h)]
      simp [traceAll, prevStep, slotOk]
    · intro q sj h
      exact Ev.noConfusion (Option.some.inj h)
  | succ n ih =>
    intro s hs
    have ih' := ih (some (Ev.pollNew p true))
      (fun q sj h => Ev.noConfusion (Option.some.inj h))
    constructor
    · rw [List.replicate_succ, List.cons_append, traceAll_cons,
        slotOk_clean hs (fun q sj h => Ev.noConfusion h), prevStep_apply,
        ih'.1]
      rfl
    · intro q sj
      rw [List.replicate_succ, List.cons_append, List.foldl_cons,
        prevStep_apply]
      exact ih'.2 q sj

/-- The whole per-frame process hand-off block passes the adjacency
checker. -/
theorem slot_processEvents (env : EngEnv) (si : Nat)
    (ps : List Nat) :
    ∀ s : Option Ev, (∀ q sj, s ≠ some (Ev.writeSlot q sj)) →
      traceAll prevStep slotOk s
        (ps.flatMap (fun p =>
          List.replicate (env.slotPolls si p) (Ev.pollNew p true) ++
          [Ev.pollNew p false, Ev.writeSlot p si, Ev.setNewImage p])) = true ∧
      (∀ q sj,
        (ps.flatMap (fun p =>
          List.replicate (env.slotPolls si p) (Ev.pollNew p true) ++
          [Ev.pollNew p false, Ev.writeSlot p si, Ev.setNewImage p])).foldl
          prevStep s ≠ some (Ev.writeSlot q sj)) := by
  induction ps with
  | nil => exact fun s hs => ⟨rfl, hs⟩
  | cons p t ih =>
    intro s hs
    obtain ⟨h1, h2⟩ := slot_one_process p si (env.slotPolls si p) s hs
    obtain ⟨h3, h4⟩ := ih _ h2
    constructor
    · rw [List.flatMap_cons, traceAll_append, h1, h3]
      rfl
    · intro q sj
      rw [List.flatMap_cons, List.foldl_append]
      exact h4 q sj

theorem mem_of_mem_ite {α : Type} {c : Prop} [Decidable c] {x : α}
    {l : List α} (h : x ∈ if c then l else []) : x ∈ l := by
  split at h
  · exact h
  · exact absurd h (List.not_mem_nil x)

theorem frameEvents_head_clean (cfg : EngCfg) (env : EngEnv) (si : Nat) :
    ∀ e ∈ ((if si % cfg.ccp = 0 then cycleEvents cfg si else []) ++
        Ev.grab si ::
        (List.range cfg.nw).map (fun w => Ev.addImage w si) ++
        (if si % cfg.ccp + 1 = cfg.ccp ∨ si = cfg.steps - 1 then
          boundaryEvents cfg env (si / cfg.ccp) else [])),
      ∀ p sj, e ≠ Ev.writeSlot p sj := by
  intro e he p sj
  simp only [List.mem_append, List.mem_cons, List.mem_map] at he
  rcases he with (he | rfl | ⟨w, _, rfl⟩) | he
  · rcases mem_of_mem_ite he with he'
    rcases cycleEvents_shape cfg si e he' with rfl | ⟨d, _, rfl⟩ | ⟨d, _, k, rfl⟩
      <;> exact fun h => Ev.noConfusion h
  · exact fun h => Ev.noConfusion h
  · exact fun h => Ev.noConfusion h
  · rcases mem_of_mem_ite he with he'
    rcases boundaryEvents_shape cfg env (si / cfg.ccp) e he' with
      rfl | ⟨d, _, rfl⟩ | ⟨x, y, rfl⟩ | ⟨w, _, rfl⟩ | ⟨w, _, rfl | rfl⟩ <;>
      exact fun h => Ev.noConfusion h

/-- Adjacency checker over one whole frame body. -/
theorem slot_frame (cfg : EngCfg) (env : EngEnv) (si : Nat) :
    ∀ s : Option Ev, (∀ p sj, s ≠ some (Ev.writeSlot p sj)) →
      traceAll prevStep slotOk s (frameEvents cfg env si) = true ∧
      (∀ p sj, (frameEvents cfg env si).foldl prevStep s ≠
        some (Ev.writeSlot p sj)) := by
  intro s hs
  obtain ⟨h1, h2⟩ := slot_seg_clean _ (frameEvents_head_clean cfg env si) s hs
  obtain ⟨h3, h4⟩ := slot_processEvents env si (List.range cfg.np) _ h2
  constructor
  · rw [frameEvents, processEvents, traceAll_append, h1, h3]
    rfl
  · intro p sj
    rw [frameEvents, processEvents, List.foldl_append]
    exact h4 p sj

theorem slot_frames (cfg : EngCfg) (env : EngEnv) (l : List Nat) :
    ∀ s : Option Ev, (∀ p sj, s ≠ some (Ev.writeSlot p sj)) →
      traceAll prevStep slotOk s (l.flatMap (frameEvents cfg env)) = true ∧
      (∀ p sj, (l.flatMap (frameEvents cfg env)).foldl prevStep s ≠
        some (Ev.writeSlot p sj)) := by
  induction l with
  | nil => exact fun s hs => ⟨rfl, hs⟩
  | cons si t ih =>
    intro s hs
    obtain ⟨h1, h2⟩ := slot_frame cfg env si s hs
    obtain ⟨h3, h4⟩ := ih _ h2
    constructor
    · rw [List.flatMap_cons, traceAll_append, h1, h3]
      rfl
    · intro p sj
      rw [List.flatMap_cons, List.foldl_append]
      exact h4 p sj

theorem pendingOk_clean {s : List Nat} {e : Ev}
    (he : ∀ p si, e ≠ Ev.writeSlot p si) : pendingOk s e = true := by
  cases e <;> first
    | rfl
    | exact absurd rfl (he _ _)

/-- One process's slot hand-off passes the pending-signal checker from
any state: the poll observing `new_image` cleared precedes the write. -/
theorem pend_one_process (p si k : Nat) :
    ∀ s : List Nat, traceAll pendingStep pendingOk s
      (List.replicate k (Ev.pollNew p true) ++
        [Ev.pollNew p false, Ev.writeSlot p si, Ev.setNewImage p]) = true := by
  induction k with
  | zero =>
    intro s
    rw [List.replicate_zero, List.nil_append, traceAll_cons]
    have h1 : pendingOk s (Ev.pollNew p false) = true := rfl
    have h2 : pendingStep s (Ev.pollNew p false) =
      s.filter (fun x => decide (x ≠ p)) := rfl
    rw [h1, h2, traceAll_cons]
    have h3 : pendingOk (s.filter (fun x => decide (x ≠ p)))
        (Ev.writeSlot p si) = true := by
      show (!((s.filter (fun x => decide (x ≠ p))).contains p)) = true
      rw [contains_filter_self]
      rfl
    rw [h3]
    rfl
  | succ n ih =>
    intro s
    rw [List.replicate_succ, List.cons_append, traceAll_cons]
    have h1 : pendingOk s (Ev.pollNew p true) = true := rfl
    have h2 : pendingStep s (Ev.pollNew p true) = s := rfl
    rw [h1, h2, ih]
    rfl

theorem pend_frame (cfg : EngCfg) (env : EngEnv) (si : Nat) :
    ∀ s : List Nat, traceAll pendingStep pendingOk s (frameEvents cfg env si)
      = true := by
  intro s
  have hP : ∀ (ps : List Nat) (s' : List Nat),
      traceAll pendingStep pendingOk s'
        (ps.flatMap (fun p =>
          List.replicate (env.slotPolls si p) (Ev.pollNew p true) ++
          [Ev.pollNew p false, Ev.writeSlot p si, Ev.setNewImage p])) = true := by
    intro ps
    induction ps with
    | nil => intro s'; rfl
    | cons p t ih =>
      intro s'
      rw [List.flatMap_cons, traceAll_append,
        pend_one_process p si (env.slotPolls si p) s', ih]
      rfl
  have hH : traceAll pendingStep pendingOk s
      ((if si % cfg.ccp = 0 then cycleEvents cfg si else []) ++
        Ev.grab si ::
        (List.range cfg.nw).map (fun w => Ev.addImage w si) ++
        (if si % cfg.ccp + 1 = cfg.ccp ∨ si = cfg.steps - 1 then
          boundaryEvents cfg env (si / cfg.ccp) else [])) = true :=
    traceAll_of_ok _ _ _
      (fun s' e he => pendingOk_clean (frameEvents_head_clean cfg env si e he))
      s
  rw [frameEvents, processEvents, traceAll_append, hH, hP]
  rfl

theorem pend_frames (cfg : EngCfg) (env : EngEnv) (l : List Nat) :
    ∀ s : List Nat, traceAll pendingStep pendingOk s
      (l.flatMap (frameEvents cfg env)) = true := by
  induction l with
  | nil => intro s; rfl
  | cons si t ih =>
    intro s
    rw [List.flatMap_cons, traceAll_append, pend_frame cfg env si s, ih]
    rfl

/-- C9: for every attached analysis process and every captured frame, the
capture loop writes the single-slot shared buffer only immediately after
observing the process's `new_image` signal cleared, sets the signal
immediately after the write, and never writes the slot while the signal
(as last set by the loop and not yet observed cleared) is still set. -/
theorem claim9_slot_protocol (cfg : EngCfg) (env : EngEnv) :
    slotProtocolSafe (engineTrace cfg env) = true := by
  obtain ⟨h1, h2⟩ := slot_frames cfg env
    ((List.range cfg.steps).takeWhile (fun si => !env.stopTop si)) none
    (fun p sj h => Option.noConfusion h)
  have h3 := pend_frames cfg env
    ((List.range cfg.steps).takeWhile (fun si => !env.stopTop si)) []
  rw [slotProtocolSafe, engineTrace, h1, h3]
  have h4 : (match (((List.range cfg.steps).takeWhile
      (fun si => !env.stopTop si)).flatMap (frameEvents cfg env)).foldl
      prevStep none with
    | some (Ev.writeSlot _ _) => false
    | _ => true) = true := by
    rcases hfold : (((List.range cfg.steps).takeWhile
        (fun si => !env.stopTop si)).flatMap (frameEvents cfg env)).foldl
        prevStep none with _ | ev
    · rfl
    · cases ev <;> first
        | rfl
        | exact absurd hfold (h2 _ _)
  rw [h4]
  rfl

/-! ### Claim C2: buffer toggles versus the done-reading signal

The drain wait of line 288 reads `writer.done_reading` through the stale
loop variable `writer`, which after the loops of lines 204 and 239 (and
after each boundary's line 290 loop) refers to the *last* writer in
iteration order; and the wait also exits as soon as `stop_engine` is
set.  Hence with two writers the first writer's buffer can be toggled
while its own `done_reading` is unset. -/

/-- A single-frame configuration with two writers. -/
def twoWriterCfg : EngCfg :=
  { steps := 1, ccp := 1, nd := 1, nw := 2, np := 0,
    hasAo := fun _ => true, hasDo := fun _ => true,
    hasPath := fun _ => true }

/-- Environment in which the last writer (index 1) has signalled done
reading (so the drain wait exits with `done_reading` observed set and no
stop request: `doneExit = true`, `stopExit = false`, consistent with
`doneTog b 1 = true`), while writer 0's own `done_reading` is still
unset (`doneTog b 0 = false`); no stop is ever requested. -/
def lastOnlyDrainedEnv : EngEnv :=
  { stopTop := fun _ => false, donePolls := fun _ => 0,
    doneExit := fun _ => true, stopExit := fun _ => false,
    doneTog := fun _ w => decide (w = 1), slotPolls := fun _ _ => 0 }

/-- C2 counterexample: in a two-writer capture loop with no stop request,
writer 0's double buffer is toggled while writer 0's `done_reading`
signal is unset — the claim fails as stated. -/
theorem claim2_counterexample :
    Ev.toggle 0 0 false ∈ engineTrace twoWriterCfg lastOnlyDrainedEnv := by
  decide

/-- C2 (amended): the drain wait observes only the last-iterated writer's
`done_reading` and also exits when `stop_engine` is set; consequently
the guarantee holds for a single-writer configuration with no stop
request: if every drain wait exits with `stop_engine` unset (hence, by
the loop condition, with `done_reading` observed set), and the consumer
can only set — never clear — `done_reading` between that observation and
the toggle, then no buffer toggle ever occurs while the writer's
`done_reading` is unset. -/
theorem claim2_no_toggle_while_undrained (cfg : EngCfg) (env : EngEnv)
    (hnw : cfg.nw = 1)
    (hexit : ∀ b, env.doneExit b = true ∨ env.stopExit b = true)
    (hstop : ∀ b, env.stopExit b = false)
    (hmono : ∀ b, env.doneExit b = true → env.doneTog b 0 = true) :
    ∀ b w, Ev.toggle b w false ∉ engineTrace cfg env := by
  intro b w hmem
  rw [engineTrace, List.mem_flatMap] at hmem
  obtain ⟨si, _, hfe⟩ := hmem
  rw [frameEvents] at hfe
  simp only [List.mem_append, List.mem_cons, List.mem_map] at hfe
  rcases hfe with ((hC | hg | ⟨w', _, hw'⟩) | hB) | hP
  · rcases cycleEvents_shape cfg si _ (mem_of_mem_ite hC) with
      heq | ⟨d, _, heq⟩ | ⟨d, _, k, heq⟩ <;> exact Ev.noConfusion heq
  · exact Ev.noConfusion hg
  · exact Ev.noConfusion hw'
  · rcases boundaryEvents_shape cfg env (si / cfg.ccp) _ (mem_of_mem_ite hB)
      with heq | ⟨d, _, heq⟩ | ⟨x, y, heq⟩ | ⟨w', hw', heq⟩ |
        ⟨w', _, heq | heq⟩
    · exact Ev.noConfusion heq
    · exact Ev.noConfusion heq
    · exact Ev.noConfusion heq
    · have hw0 : w' = 0 := by
        rw [hnw] at hw'
        exact Nat.lt_one_iff.mp hw'
      have hdone : env.doneTog (si / cfg.ccp) w' = false := by
        injection heq with h1 h2 h3
        exact h3.symm
      have hdexit : env.doneExit (si / cfg.ccp) = true := by
        rcases hexit (si / cfg.ccp) with h | h
        · exact h
        · rw [hstop (si / cfg.ccp)] at h
          exact absurd h (by simp)
      rw [hw0] at hdone
      rw [hmono (si / cfg.ccp) hdexit] at hdone
      exact Bool.noConfusion hdone
    · exact Ev.noConfusion heq
    · exact Ev.noConfusion heq
  · rcases processEvents_shape cfg env si _ hP with
      ⟨p, _, heq | heq | heq | heq⟩ <;> exact Ev.noConfusion heq

/-- C2 witness: the amended theorem applied to a concrete single-writer
configuration with a quiescent environment. -/
theorem claim2_no_toggle_while_undrained_witness :
    oneDaqCfg.nw = 1 ∧ Ev.toggle 0 0 false ∉ engineTrace oneDaqCfg quietEnv :=
  ⟨rfl, claim2_no_toggle_while_undrained oneDaqCfg quietEnv rfl
    (fun _ => Or.inl rfl) (fun _ => rfl) (fun _ _ => rfl) 0 0⟩

/-! ### Claim C1: chunk sizes and pulse counts

Arithmetic facts about `chunkCount` / `lastChunkSize`, followed by the
correspondence between the engine trace and the per-frame chunking
conditions of lines 257-262 and 285. -/

theorem chunkCount_of_le {steps ccp : Nat}
    (h1 : 0 < steps) (h2 : steps ≤ ccp) : chunkCount steps ccp = 1 := by
  rw [chunkCount]
  exact Nat.div_eq_of_lt_le (by omega) (by omega)

theorem lastChunkSize_of_le {steps ccp : Nat}
    (h1 : 0 < steps) (h2 : steps ≤ ccp) : lastChunkSize steps ccp = steps := by
  rw [lastChunkSize]
  rcases Nat.lt_or_ge steps ccp with h | h
  · rw [Nat.mod_eq_of_lt h, if_neg (by omega)]
  · have heq : steps = ccp := le_antisymm h2 h
    subst heq
    rw [Nat.mod_self, if_pos rfl]

theorem chunkCount_shift {steps ccp : Nat} (hccp : 0 < ccp)
    (h : ccp < steps) :
    chunkCount steps ccp = chunkCount (steps - ccp) ccp + 1 := by
  rw [chunkCount, chunkCount]
  have h1 : steps + ccp - 1 = (steps - ccp + ccp - 1) + ccp := by omega
  rw [h1, Nat.add_div_right _ hccp]

theorem lastChunkSize_shift {steps ccp : Nat} (h : ccp ≤ steps) :
    lastChunkSize steps ccp = lastChunkSize (steps - ccp) ccp := by
  rw [lastChunkSize, lastChunkSize, Nat.mod_eq_sub_mod h]

theorem chunkCount_pos {steps ccp : Nat} (hccp : 0 < ccp)
    (hsteps : 0 < steps) : 1 ≤ chunkCount steps ccp := by
  rw [chunkCount, Nat.one_le_div_iff hccp]
  omega

theorem numPulses_shift {steps ccp t : Nat} (hccp : 0 < ccp)
    (h : ccp < steps) :
    numPulses steps ccp (ccp + t) = numPulses (steps - ccp) ccp t := by
  rw [numPulses, numPulses, chunkCount_shift hccp h,
    lastChunkSize_shift (le_of_lt h), Nat.add_comm ccp t,
    Nat.add_div_right _ hccp]
  have heq : chunkCount (steps - ccp) ccp + 1 - (t / ccp + 1) =
      chunkCount (steps - ccp) ccp - t / ccp := by omega
  rw [heq]

/-- The dispatch sizes predicted frame-by-frame by the loop conditions:
a chunk is dispatched at stack index `si` when `si` completes a chunk or
is the tile's last frame, and it then contains `si % ccp + 1` frames. -/
theorem filterMap_singleton_some {α β : Type} (f : α → Option β) (a : α)
    (b : β) (h : f a = some b) : [a].filterMap f = [b] := by
  rw [List.filterMap_cons, h, List.filterMap_nil]

theorem coreSizes_eq (ccp : Nat) (hccp : 0 < ccp) :
    ∀ steps, 0 < steps →
      (List.range steps).filterMap (fun si =>
        if si % ccp + 1 = ccp ∨ si = steps - 1 then some (si % ccp + 1)
        else none) =
      List.replicate (chunkCount steps ccp - 1) ccp ++
        [lastChunkSize steps ccp] := by
  intro steps
  induction steps using Nat.strong_induction_on with
  | _ steps ih =>
    intro hsteps
    by_cases hle : steps ≤ ccp
    · rw [chunkCount_of_le hsteps hle, lastChunkSize_of_le hsteps hle]
      obtain ⟨s', rfl⟩ : ∃ s', steps = s' + 1 := ⟨steps - 1, by omega⟩
      simp only [Nat.add_sub_cancel, Nat.sub_self, List.replicate_zero,
        List.nil_append]
      rw [List.range_succ, List.filterMap_append]
      have h1 : (List.range s').filterMap (fun si =>
          if si % ccp + 1 = ccp ∨ si = s' then some (si % ccp + 1)
          else none) = [] := by
        refine List.filterMap_eq_nil_iff.mpr (fun si hsi => ?_)
        rw [List.mem_range] at hsi
        have h2 : si % ccp = si := Nat.mod_eq_of_lt (by omega)
        rw [h2, if_neg]
        rintro (h3 | h3) <;> omega
      have h2 : s' % ccp = s' := Nat.mod_eq_of_lt (by omega)
      have h3 : (if s' % ccp + 1 = ccp ∨ s' = s'
          then some (s' % ccp + 1) else none) = some (s' + 1) := by
        rw [h2, if_pos (Or.inr rfl)]
      rw [h1, List.nil_append]
      exact filterMap_singleton_some _ s' (s' + 1) h3
    · have hlt : ccp < steps := by omega
      have hppos : 0 < steps - ccp := by omega
      have ihs := ih (steps - ccp) (by omega) hppos
      have hsplit : List.range' 0 ccp ++ List.range' (0 + 1 * ccp)
          (steps - ccp) = List.range' 0 (steps - ccp + ccp) :=
        List.range'_append 0 ccp (steps - ccp) 1
      simp only [Nat.zero_add, Nat.one_mul] at hsplit
      have hl : steps - ccp + ccp = steps := by omega
      rw [hl] at hsplit
      rw [List.range_eq_range', ← hsplit, List.filterMap_append]
      have hfirst : (List.range' 0 ccp).filterMap (fun si =>
          if si % ccp + 1 = ccp ∨ si = steps - 1 then some (si % ccp + 1)
          else none) = [ccp] := by
        rw [← List.range_eq_range']
        obtain ⟨c', hc'⟩ : ∃ c', ccp = c' + 1 := ⟨ccp - 1, by omega⟩
        have h1 : (List.range c').filterMap (fun si =>
            if si % ccp + 1 = ccp ∨ si = steps - 1
            then some (si % ccp + 1) else none) = [] := by
          refine List.filterMap_eq_nil_iff.mpr (fun si hsi => ?_)
          rw [List.mem_range] at hsi
          have h2 : si % ccp = si := Nat.mod_eq_of_lt (by omega)
          rw [h2, if_neg]
          rintro (h3 | h3) <;> omega
        have h2 : c' % ccp = c' := Nat.mod_eq_of_lt (by omega)
        have h3 : (if c' % ccp + 1 = ccp ∨ c' = steps - 1
            then some (c' % ccp + 1) else none) = some ccp := by
          rw [h2, if_pos (Or.inl (by omega))]
          rw [hc']
        rw [hc', List.range_succ, ← hc', List.filterMap_append, h1,
          List.nil_append]
        exact filterMap_singleton_some _ c' ccp h3
      have hsecond : (List.range' ccp (steps - ccp)).filterMap (fun si =>
          if si % ccp + 1 = ccp ∨ si = steps - 1 then some (si % ccp + 1)
          else none) =
          List.replicate (chunkCount (steps - ccp) ccp - 1) ccp ++
            [lastChunkSize (steps - ccp) ccp] := by
        rw [List.range'_eq_map_range, List.filterMap_map, ← ihs]
        refine List.filterMap_congr (fun t ht => ?_)
        have hiff : (ccp + t = steps - 1) ↔ (t = steps - ccp - 1) := by omega
        simp only [Function.comp_apply, Nat.add_mod_left, hiff]
      rw [hfirst, hsecond, chunkCount_shift hccp hlt,
        lastChunkSize_shift (le_of_lt hlt)]
      have hcc1 : 1 ≤ chunkCount (steps - ccp) ccp := chunkCount_pos hccp hppos
      obtain ⟨c, hc⟩ : ∃ c, chunkCount (steps - ccp) ccp = c + 1 :=
        ⟨chunkCount (steps - ccp) ccp - 1, by omega⟩
      rw [hc]
      simp [List.replicate_succ]

/-- The pulse counts predicted frame-by-frame by the cycle condition of
line 259 and the computation of lines 260-262. -/
theorem corePulses_eq (ccp : Nat) (hccp : 0 < ccp) :
    ∀ steps, 0 < steps →
      (List.range steps).filterMap (fun si =>
        if si % ccp = 0 then some (numPulses steps ccp si) else none) =
      List.replicate (chunkCount steps ccp - 1) ccp ++
        [lastChunkSize steps ccp] := by
  intro steps
  induction steps using Nat.strong_induction_on with
  | _ steps ih =>
    intro hsteps
    by_cases hle : steps ≤ ccp
    · rw [chunkCount_of_le hsteps hle]
      simp only [Nat.sub_self, List.replicate_zero, List.nil_append]
      obtain ⟨s', rfl⟩ : ∃ s', steps = s' + 1 := ⟨steps - 1, by omega⟩
      have h0 : (if (0 : Nat) % ccp = 0
          then some (numPulses (s' + 1) ccp 0) else none) =
          some (lastChunkSize (s' + 1) ccp) := by
        rw [if_pos (Nat.zero_mod ccp), numPulses, Nat.zero_div, Nat.sub_zero,
          chunkCount_of_le hsteps hle, if_pos rfl]
      have htail : (List.map Nat.succ (List.range s')).filterMap (fun si =>
          if si % ccp = 0 then some (numPulses (s' + 1) ccp si) else none)
          = [] := by
        rw [List.filterMap_map]
        refine List.filterMap_eq_nil_iff.mpr (fun t ht => ?_)
        rw [List.mem_range] at ht
        have hm : Nat.succ t % ccp = t + 1 := Nat.mod_eq_of_lt (by omega)
        simp only [Function.comp_apply, hm]
        rw [if_neg (by omega)]
      rw [List.range_succ_eq_map, List.filterMap_cons, h0, htail]
    · have hlt : ccp < steps := by omega
      have hppos : 0 < steps - ccp := by omega
      have ihs := ih (steps - ccp) (by omega) hppos
      have hcc2 : 2 ≤ chunkCount steps ccp := by
        rw [chunkCount_shift hccp hlt]
        have := chunkCount_pos hccp hppos
        omega
      have hsplit : List.range' 0 ccp ++ List.range' (0 + 1 * ccp)
          (steps - ccp) = List.range' 0 (steps - ccp + ccp) :=
        List.range'_append 0 ccp (steps - ccp) 1
      simp only [Nat.zero_add, Nat.one_mul] at hsplit
      have hl : steps - ccp + ccp = steps := by omega
      rw [hl] at hsplit
      rw [List.range_eq_range', ← hsplit, List.filterMap_append]
      have hfirst : (List.range' 0 ccp).filterMap (fun si =>
          if si % ccp = 0 then some (numPulses steps ccp si) else none)
          = [ccp] := by
        rw [← List.range_eq_range']
        obtain ⟨c', hc'⟩ : ∃ c', ccp = c' + 1 := ⟨ccp - 1, by omega⟩
        have h0 : (if (0 : Nat) % ccp = 0
            then some (numPulses steps ccp 0) else none) = some ccp := by
          rw [if_pos (Nat.zero_mod ccp), numPulses, Nat.zero_div,
            Nat.sub_zero, if_neg (by omega)]
        have htail : (List.map Nat.succ (List.range c')).filterMap (fun si =>
            if si % ccp = 0 then some (numPulses steps ccp si) else none)
            = [] := by
          rw [List.filterMap_map]
          refine List.filterMap_eq_nil_iff.mpr (fun t ht => ?_)
          rw [List.mem_range] at ht
          have hm : Nat.succ t % ccp = t + 1 := Nat.mod_eq_of_lt (by omega)
          simp only [Function.comp_apply, hm]
          rw [if_neg (by omega)]
        rw [hc', List.range_succ_eq_map, ← hc', List.filterMap_cons, h0,
          htail]
      have hsecond : (List.range' ccp (steps - ccp)).filterMap (fun si =>
          if si % ccp = 0 then some (numPulses steps ccp si) else none) =
          List.replicate (chunkCount (steps - ccp) ccp - 1) ccp ++
            [lastChunkSize (steps - ccp) ccp] := by
        rw [List.range'_eq_map_range, List.filterMap_map, ← ihs]
        refine List.filterMap_congr (fun t ht => ?_)
        simp only [Function.comp_apply, Nat.add_mod_left,
          numPulses_shift hccp hlt]
      rw [hfirst, hsecond, chunkCount_shift hccp hlt,
        lastChunkSize_shift (le_of_lt hlt)]
      have hcc1 : 1 ≤ chunkCount (steps - ccp) ccp := chunkCount_pos hccp hppos
      obtain ⟨c, hc⟩ : ∃ c, chunkCount (steps - ccp) ccp = c + 1 :=
        ⟨chunkCount (steps - ccp) ccp - 1, by omega⟩
      rw [hc]
      simp [List.replicate_succ]

/-- The chunk sizes sum back to the tile's frame count. -/
theorem specSizes_sum (ccp : Nat) (hccp : 0 < ccp) :
    ∀ steps, 0 < steps →
      (List.replicate (chunkCount steps ccp - 1) ccp ++
        [lastChunkSize steps ccp]).sum = steps := by
  intro steps
  induction steps using Nat.strong_induction_on with
  | _ steps ih =>
    intro hsteps
    rw [List.sum_append, List.sum_replicate, smul_eq_mul, List.sum_singleton]
    by_cases hle : steps ≤ ccp
    · rw [chunkCount_of_le hsteps hle, lastChunkSize_of_le hsteps hle]
      simp
    · have hlt : ccp < steps := by omega
      have hppos : 0 < steps - ccp := by omega
      have ihs := ih (steps - ccp) (by omega) hppos
      rw [List.sum_append, List.sum_replicate, smul_eq_mul,
        List.sum_singleton] at ihs
      rw [chunkCount_shift hccp hlt, lastChunkSize_shift (le_of_lt hlt)]
      have hcc1 : 1 ≤ chunkCount (steps - ccp) ccp := chunkCount_pos hccp hppos
      obtain ⟨c, hc⟩ : ∃ c, chunkCount (steps - ccp) ccp = c + 1 :=
        ⟨chunkCount (steps - ccp) ccp - 1, by omega⟩
      rw [hc] at ihs ⊢
      simp only [Nat.add_sub_cancel] at ihs ⊢
      rw [Nat.succ_mul]
      generalize hA : c * ccp = A at ihs ⊢
      omega

theorem takeWhile_all {α : Type} (p : α → Bool) (l : List α)
    (h : ∀ x ∈ l, p x = true) : l.takeWhile p = l := by
  induction l with
  | nil => rfl
  | cons x t ih =>
    rw [List.takeWhile_cons, h x (List.mem_cons_self x t),
      ih (fun x' hx' => h x' (List.mem_cons_of_mem x hx')), if_pos rfl]

theorem flatMap_const_singleton {α : Type} (l : List α) (v : Nat) :
    l.flatMap (fun _ => [v]) = List.replicate l.length v := by
  induction l with
  | nil => rfl
  | cons x t ih =>
    rw [List.flatMap_cons, ih, List.length_cons, List.replicate_succ]
    rfl

theorem pulse_cycle (cfg : EngCfg) (si : Nat) :
    (cycleEvents cfg si).filterMap getPulse =
      List.replicate cfg.nd (numPulses cfg.steps cfg.ccp si) := by
  rw [cycleEvents,
    List.filterMap_cons_none
      (show getPulse (Ev.cycleBegin (si / cfg.ccp)) = none from rfl),
    List.filterMap_flatMap]
  have hone : ∀ d ∈ List.range cfg.nd,
      (Ev.cfgTiming d (numPulses cfg.steps cfg.ccp si) ::
        (List.range cfg.nd).flatMap (fun d2 =>
          (if cfg.hasAo d2 then [Ev.startTask d2 TaskKind.ao] else []) ++
          (if cfg.hasDo d2 then [Ev.startTask d2 TaskKind.dig] else []) ++
          [Ev.startTask d2 TaskKind.co])).filterMap getPulse =
        [numPulses cfg.steps cfg.ccp si] := by
    intro d _
    rw [List.filterMap_cons_some
      (show getPulse (Ev.cfgTiming d (numPulses cfg.steps cfg.ccp si)) =
        some (numPulses cfg.steps cfg.ccp si) from rfl)]
    have hin : ((List.range cfg.nd).flatMap (fun d2 =>
        (if cfg.hasAo d2 then [Ev.startTask d2 TaskKind.ao] else []) ++
        (if cfg.hasDo d2 then [Ev.startTask d2 TaskKind.dig] else []) ++
        [Ev.startTask d2 TaskKind.co])).filterMap getPulse = [] := by
      refine List.filterMap_eq_nil_iff.mpr (fun e he => ?_)
      simp only [List.mem_flatMap, List.mem_range, List.mem_append,
        List.mem_ite_nil_right, List.mem_singleton, List.not_mem_nil,
        or_false] at he
      obtain ⟨d2, _, he⟩ := he
      rcases he with (⟨_, rfl⟩ | ⟨_, rfl⟩) | rfl <;> rfl
    rw [hin]
  rw [List.flatMap_congr hone, flatMap_const_singleton, List.length_range]

theorem pulse_frame (cfg : EngCfg) (env : EngEnv) (si : Nat) :
    (frameEvents cfg env si).filterMap getPulse =
      (if si % cfg.ccp = 0 then
        List.replicate cfg.nd (numPulses cfg.steps cfg.ccp si) else []) := by
  have hX : (Ev.grab si ::
      (List.range cfg.nw).map (fun w => Ev.addImage w si)).filterMap getPulse
      = [] := by
    rw [List.filterMap_cons_none
      (show getPulse (Ev.grab si) = none from rfl)]
    refine List.filterMap_eq_nil_iff.mpr (fun e he => ?_)
    simp only [List.mem_map] at he
    obtain ⟨w, _, rfl⟩ := he
    rfl
  have hB : (if si % cfg.ccp + 1 = cfg.ccp ∨ si = cfg.steps - 1 then
      boundaryEvents cfg env (si / cfg.ccp) else []).filterMap getPulse
      = [] := by
    split
    · refine List.filterMap_eq_nil_iff.mpr (fun e he => ?_)
      rcases boundaryEvents_shape cfg env (si / cfg.ccp) e he with
        rfl | ⟨d, _, rfl⟩ | ⟨x, y, rfl⟩ | ⟨w, _, rfl⟩ | ⟨w, _, rfl | rfl⟩ <;>
        rfl
    · rfl
  have hP : (processEvents cfg env si).filterMap getPulse = [] := by
    refine List.filterMap_eq_nil_iff.mpr (fun e he => ?_)
    rcases processEvents_shape cfg env si e he with
      ⟨p, _, rfl | rfl | rfl | rfl⟩ <;> rfl
  have hC : (if si % cfg.ccp = 0 then cycleEvents cfg si else []).filterMap
      getPulse = (if si % cfg.ccp = 0 then
        List.replicate cfg.nd (numPulses cfg.steps cfg.ccp si) else []) := by
    split
    · exact pulse_cycle cfg si
    · rfl
  rw [frameEvents, List.filterMap_append, List.filterMap_append,
    List.filterMap_append, hC, hX, hB, hP, List.append_nil, List.append_nil,
    List.append_nil]

/-- Under a no-stop environment, the pulse counts programmed along the
engine trace are exactly the per-cycle `num_pulses` values, one
`cfg_implicit_timing` call per DAQ per cycle. -/
theorem pulseList_engine (cfg : EngCfg) (env : EngEnv)
    (hstop : ∀ si, env.stopTop si = false) :
    pulseList (engineTrace cfg env) =
      (List.range cfg.steps).flatMap (fun si =>
        if si % cfg.ccp = 0 then
          List.replicate cfg.nd (numPulses cfg.steps cfg.ccp si) else []) := by
  rw [pulseList, engineTrace,
    takeWhile_all _ _ (fun x _ => by rw [hstop x]; rfl),
    List.filterMap_flatMap]
  exact List.flatMap_congr (fun si _ => pulse_frame cfg env si)

theorem flatMap_guard {l : List Nat} {c : Nat → Prop} [DecidablePred c]
    {f : Nat → Nat} {g : Nat → List Nat} :
    l.flatMap (fun x => if c x then g (f x) else []) =
      (l.filterMap (fun x => if c x then some (f x) else none)).flatMap g := by
  induction l with
  | nil => rfl
  | cons x t ih =>
    rw [List.flatMap_cons]
    by_cases hx : c x
    · rw [if_pos hx,
        @List.filterMap_cons_some Nat Nat
          (fun y => if c y then some (f y) else none) x t (f x) (if_pos hx),
        List.flatMap_cons, ih]
    · rw [if_neg hx,
        @List.filterMap_cons_none Nat Nat
          (fun y => if c y then some (f y) else none) x t (if_neg hx),
        List.nil_append, ih]

theorem collect_neutral {σ α β : Type} (step : σ → α → σ)
    (out : σ → α → List β) (l : List α)
    (h : ∀ e ∈ l, (∀ s, step s e = s) ∧ (∀ s, out s e = [])) :
    ∀ s, traceCollect step out s l = [] ∧ l.foldl step s = s := by
  induction l with
  | nil => exact fun s => ⟨rfl, rfl⟩
  | cons e t ih =>
    intro s
    have he := h e (List.mem_cons_self e t)
    have ih' := ih (fun e' he' => h e' (List.mem_cons_of_mem e he')) s
    constructor
    · show out s e ++ traceCollect step out (step s e) t = []
      rw [he.2, he.1, ih'.1]
      rfl
    · show t.foldl step (step s e) = s
      rw [he.1, ih'.2]

theorem ds_boundary (cfg : EngCfg) (env : EngEnv) (b : Nat) (c : Nat) :
    traceCollect dsStep dsOut c (boundaryEvents cfg env b) = [c] ∧
    (boundaryEvents cfg env b).foldl dsStep c = 0 := by
  have hrest : ∀ e ∈ ((List.range cfg.nd).map (Ev.daqStop b) ++
      (List.replicate (env.donePolls b) (Ev.pollDone false false) ++
        [Ev.pollDone (env.doneExit b) (env.stopExit b)]) ++
      (List.range cfg.nw).flatMap (fun w =>
        Ev.toggle b w (env.doneTog b w) ::
        (if cfg.hasPath w then [Ev.setShm w, Ev.clearDone w] else []))),
      (∀ s, dsStep s e = s) ∧ (∀ s, dsOut s e = []) := by
    intro e he
    simp only [List.mem_append, List.mem_map, List.mem_replicate,
      List.mem_singleton] at he
    rcases he with (⟨d, _, rfl⟩ | ⟨_, rfl⟩ | rfl) | he
    · exact ⟨fun s => rfl, fun s => rfl⟩
    · exact ⟨fun s => rfl, fun s => rfl⟩
    · exact ⟨fun s => rfl, fun s => rfl⟩
    · rcases toggleSeg_shape cfg env b (List.range cfg.nw) e he with
        ⟨w, rfl | rfl | rfl⟩ <;> exact ⟨fun s => rfl, fun s => rfl⟩
  obtain ⟨h1, h2⟩ := collect_neutral dsStep dsOut _ hrest 0
  constructor
  · show dsOut c (Ev.dispatch b) ++
      traceCollect dsStep dsOut (dsStep c (Ev.dispatch b)) _ = [c]
    rw [show dsOut c (Ev.dispatch b) = [c] from rfl,
      show dsStep c (Ev.dispatch b) = 0 from rfl, h1]
    rfl
  · show List.foldl dsStep (dsStep c (Ev.dispatch b)) _ = 0
    rw [show dsStep c (Ev.dispatch b) = 0 from rfl, h2]

theorem ds_frame (cfg : EngCfg) (env : EngEnv) (si : Nat) (c : Nat) :
    traceCollect dsStep dsOut c (frameEvents cfg env si) =
      (if si % cfg.ccp + 1 = cfg.ccp ∨ si = cfg.steps - 1 then [c + 1]
        else []) ∧
    (frameEvents cfg env si).foldl dsStep c =
      (if si % cfg.ccp + 1 = cfg.ccp ∨ si = cfg.steps - 1 then 0
        else c + 1) := by
  have hCn : ∀ e ∈ (if si % cfg.ccp = 0 then cycleEvents cfg si else []),
      (∀ s, dsStep s e = s) ∧ (∀ s, dsOut s e = []) := by
    intro e he
    rcases cycleEvents_shape cfg si e (mem_of_mem_ite he) with
      rfl | ⟨d, _, rfl⟩ | ⟨d, _, k, rfl⟩ <;>
      exact ⟨fun s => rfl, fun s => rfl⟩
  have hMn : ∀ e ∈ (List.range cfg.nw).map (fun w => Ev.addImage w si),
      (∀ s, dsStep s e = s) ∧ (∀ s, dsOut s e = []) := by
    intro e he
    simp only [List.mem_map] at he
    obtain ⟨w, _, rfl⟩ := he
    exact ⟨fun s => rfl, fun s => rfl⟩
  have hPn : ∀ e ∈ processEvents cfg env si,
      (∀ s, dsStep s e = s) ∧ (∀ s, dsOut s e = []) := by
    intro e he
    rcases processEvents_shape cfg env si e he with
      ⟨p, _, rfl | rfl | rfl | rfl⟩ <;> exact ⟨fun s => rfl, fun s => rfl⟩
  obtain ⟨hC1, hC2⟩ := collect_neutral dsStep dsOut _ hCn c
  obtain ⟨hM1, hM2⟩ := collect_neutral dsStep dsOut _ hMn (c + 1)
  have hXcol : traceCollect dsStep dsOut c
      (Ev.grab si :: (List.range cfg.nw).map (fun w => Ev.addImage w si))
      = [] := hM1
  have hXfold : List.foldl dsStep c
      (Ev.grab si :: (List.range cfg.nw).map (fun w => Ev.addImage w si))
      = c + 1 := hM2
  have sAX : List.foldl dsStep c
      ((if si % cfg.ccp = 0 then cycleEvents cfg si else []) ++
        Ev.grab si :: (List.range cfg.nw).map (fun w => Ev.addImage w si))
      = c + 1 := by
    rw [List.foldl_append, hC2, hXfold]
  by_cases hcond : si % cfg.ccp + 1 = cfg.ccp ∨ si = cfg.steps - 1
  · obtain ⟨hB1, hB2⟩ := ds_boundary cfg env (si / cfg.ccp) (c + 1)
    have sAXB : List.foldl dsStep c
        (((if si % cfg.ccp = 0 then cycleEvents cfg si else []) ++
          Ev.grab si :: (List.range cfg.nw).map (fun w => Ev.addImage w si)) ++
          boundaryEvents cfg env (si / cfg.ccp)) = 0 := by
      rw [List.foldl_append, sAX, hB2]
    constructor
    · rw [frameEvents, if_pos hcond, traceCollect_append, traceCollect_append,
        traceCollect_append, hC1, hC2, hXcol, sAX, sAXB, hB1,
        (collect_neutral dsStep dsOut _ hPn 0).1, if_pos hcond]
      rfl
    · rw [frameEvents, if_pos hcond, List.foldl_append, List.foldl_append,
        List.foldl_append, hC2, hXfold, hB2,
        (collect_neutral dsStep dsOut _ hPn 0).2, if_pos hcond]
  · have sAXB : List.foldl dsStep c
        (((if si % cfg.ccp = 0 then cycleEvents cfg si else []) ++
          Ev.grab si :: (List.range cfg.nw).map (fun w => Ev.addImage w si)) ++
          ([] : List Ev)) = c + 1 := by
      rw [List.foldl_append, sAX]
      rfl
    constructor
    · rw [frameEvents, if_neg hcond, traceCollect_append, traceCollect_append,
        traceCollect_append, hC1, hC2, hXcol, sAX, sAXB,
        (collect_neutral dsStep dsOut _ hPn (c + 1)).1, if_neg hcond]
      rfl
    · rw [frameEvents, if_neg hcond, List.foldl_append, List.foldl_append,
        List.foldl_append, hC2, hXfold,
        show List.foldl dsStep (c + 1) ([] : List Ev) = c + 1 from rfl,
        (collect_neutral dsStep dsOut _ hPn (c + 1)).2, if_neg hcond]

theorem mod_succ_of_boundary {k ccp : Nat}
    (h : k % ccp + 1 = ccp) : (k + 1) % ccp = 0 := by
  have hdm := Nat.div_add_mod k ccp
  have hrw : k + 1 = ccp * (k / ccp + 1) := by
    rw [Nat.mul_add, Nat.mul_one]
    generalize ccp * (k / ccp) = A at hdm ⊢
    omega
  rw [hrw, Nat.mul_mod_right]

theorem mod_succ_of_not_boundary {k ccp : Nat} (hccp : 0 < ccp)
    (h : k % ccp + 1 ≠ ccp) : (k + 1) % ccp = k % ccp + 1 := by
  have hlt : k % ccp < ccp := Nat.mod_lt k hccp
  have h1 : k % ccp + 1 < ccp := lt_of_le_of_ne (by omega) h
  have hdm := Nat.div_add_mod k ccp
  have hrw : k + 1 = ccp * (k / ccp) + (k % ccp + 1) := by
    generalize ccp * (k / ccp) = A at hdm ⊢
    omega
  rw [hrw, Nat.mul_add_mod, Nat.mod_eq_of_lt h1]

theorem ds_frames (cfg : EngCfg) (env : EngEnv) (hccp : 0 < cfg.ccp) :
    ∀ m k, k + m = cfg.steps →
      traceCollect dsStep dsOut (k % cfg.ccp)
        ((List.range' k m).flatMap (frameEvents cfg env)) =
      (List.range' k m).filterMap (fun si =>
        if si % cfg.ccp + 1 = cfg.ccp ∨ si = cfg.steps - 1
        then some (si % cfg.ccp + 1) else none) := by
  intro m
  induction m with
  | zero => intro k _; rfl
  | succ n ih =>
    intro k hk
    rw [List.range'_succ, List.flatMap_cons, traceCollect_append]
    obtain ⟨hf1, hf2⟩ := ds_frame cfg env k (k % cfg.ccp)
    rw [hf1, hf2]
    by_cases hcond : k % cfg.ccp + 1 = cfg.ccp ∨ k = cfg.steps - 1
    · rw [if_pos hcond, if_pos hcond,
        @List.filterMap_cons_some Nat Nat
          (fun si => if si % cfg.ccp + 1 = cfg.ccp ∨ si = cfg.steps - 1
            then some (si % cfg.ccp + 1) else none)
          k (List.range' (k + 1) n) (k % cfg.ccp + 1) (if_pos hcond)]
      rcases Nat.eq_zero_or_pos n with hn | hn
      · subst hn
        rfl
      · have hleft : k % cfg.ccp + 1 = cfg.ccp := by
          rcases hcond with h | h
          · exact h
          · omega
        have hk1 : (k + 1) % cfg.ccp = 0 := mod_succ_of_boundary hleft
        have hih := ih (k + 1) (by omega)
        rw [hk1] at hih
        rw [hih]
        rfl
    · have hnot : ¬(k % cfg.ccp + 1 = cfg.ccp ∨ k = cfg.steps - 1) := hcond
      rw [if_neg hcond, if_neg hcond,
        @List.filterMap_cons_none Nat Nat
          (fun si => if si % cfg.ccp + 1 = cfg.ccp ∨ si = cfg.steps - 1
            then some (si % cfg.ccp + 1) else none)
          k (List.range' (k + 1) n) (if_neg hcond), List.nil_append]
      have hk1 : (k + 1) % cfg.ccp = k % cfg.ccp + 1 :=
        mod_succ_of_not_boundary hccp (fun h => hnot (Or.inl h))
      have hih := ih (k + 1) (by omega)
      rw [hk1] at hih
      exact hih

/-- Under a no-stop environment, the chunk sizes dispatched along the
engine trace are exactly the frame counts predicted by the boundary
condition of line 285. -/
theorem dispatchSizes_engine (cfg : EngCfg) (env : EngEnv)
    (hccp : 0 < cfg.ccp) (hstop : ∀ si, env.stopTop si = false) :
    dispatchSizes (engineTrace cfg env) =
      (List.range cfg.steps).filterMap (fun si =>
        if si % cfg.ccp + 1 = cfg.ccp ∨ si = cfg.steps - 1
        then some (si % cfg.ccp + 1) else none) := by
  rw [dispatchSizes, engineTrace,
    takeWhile_all _ _ (fun x _ => by rw [hstop x]; rfl),
    List.range_eq_range']
  have h0 : (0 : Nat) % cfg.ccp = 0 := Nat.zero_mod cfg.ccp
  have := ds_frames cfg env hccp cfg.steps 0 (by omega)
  rw [h0] at this
  exact this

/-- C1: for every tile whose acquisition completes without the stop flag
being set, the engine dispatches exactly `ceil(steps / chunk_count_px)`
chunks (for positive `ccp`, `chunkCount = (steps + ccp - 1) / ccp` is
that ceiling); the dispatched frame counts are `chunk_count_px` for
every non-final chunk and `lastChunkSize` — `steps % chunk_count_px`
when that remainder is non-zero, else `chunk_count_px` — for the final
chunk, and they sum to exactly `steps`; and the pulse count programmed
at each trigger cycle (one `cfg_implicit_timing` call per DAQ per
cycle) is `chunk_count_px` for every non-final chunk and
`lastChunkSize` for the last chunk. -/
theorem claim1_chunk_dispatch (cfg : EngCfg) (env : EngEnv)
    (hccp : 0 < cfg.ccp) (hsteps : 0 < cfg.steps)
    (hstop : ∀ si, env.stopTop si = false) :
    dispatchSizes (engineTrace cfg env) =
      List.replicate (chunkCount cfg.steps cfg.ccp - 1) cfg.ccp ++
        [lastChunkSize cfg.steps cfg.ccp] ∧
    (dispatchSizes (engineTrace cfg env)).length =
      chunkCount cfg.steps cfg.ccp ∧
    (dispatchSizes (engineTrace cfg env)).sum = cfg.steps ∧
    pulseList (engineTrace cfg env) =
      (List.replicate (chunkCount cfg.steps cfg.ccp - 1) cfg.ccp ++
        [lastChunkSize cfg.steps cfg.ccp]).flatMap
        (fun v => List.replicate cfg.nd v) := by
  have hds : dispatchSizes (engineTrace cfg env) =
      List.replicate (chunkCount cfg.steps cfg.ccp - 1) cfg.ccp ++
        [lastChunkSize cfg.steps cfg.ccp] := by
    rw [dispatchSizes_engine cfg env hccp hstop,
      coreSizes_eq cfg.ccp hccp cfg.steps hsteps]
  refine ⟨hds, ?_, ?_, ?_⟩
  · rw [hds, List.length_append, List.length_replicate]
    have h1 := chunkCount_pos hccp hsteps
    simp
    omega
  · rw [hds]
    exact specSizes_sum cfg.ccp hccp cfg.steps hsteps
  · rw [pulseList_engine cfg env hstop,
      @flatMap_guard (List.range cfg.steps) (fun si => si % cfg.ccp = 0) _
        (numPulses cfg.steps cfg.ccp) (fun v => List.replicate cfg.nd v),
      corePulses_eq cfg.ccp hccp cfg.steps hsteps]

/-- C1 witness: the end-to-end scenario of the specification,
`chunk_count_px = 4`, `steps = 10`: three chunks of sizes `[4, 4, 2]`,
pulse counts `[4, 4, 2]`, so the last chunk's pulse count is 2. -/
theorem claim1_chunk_dispatch_witness :
    dispatchSizes (engineTrace oneDaqCfg quietEnv) = [4, 4, 2] ∧
    (dispatchSizes (engineTrace oneDaqCfg quietEnv)).length = 3 ∧
    (dispatchSizes (engineTrace oneDaqCfg quietEnv)).sum = 10 ∧
    pulseList (engineTrace oneDaqCfg quietEnv) = [4, 4, 2] := by
  obtain ⟨h1, h2, h3, h4⟩ := claim1_chunk_dispatch oneDaqCfg quietEnv
    (by decide) (by decide) (fun _ => rfl)
  refine ⟨?_, ?_, ?_, ?_⟩
  · rw [h1]
    decide
  · rw [h2]
    decide
  · exact h3
  · rw [h4]
    decide

/-! ### The tile orchestrator `run` (lines 51-196), `_verify_acquisition`
(lines 37-49), `stop_acquisition` (lines 333-342) and the writer setup
of `engine` (lines 204-215) -/

/-- One tile record of the scan plan (`self.config['acquisition']['tiles']`). -/
structure Tile where
  steps : Nat
  stepSize : Rat
  posX : Rat
  posY : Rat
  posZ : Rat
  channel : String

/-- Configuration visible to `run`: the scan plan, the writers' configured
`chunk_count_px` per device (`self.writers`, a dict of dicts), and the
instrument's stages, DAQs (with which task kinds each carries), cameras,
routines and transfer operations (`self.transfers`, a dict of dicts:
`transfersPerDev dev` transfers for device `dev`). -/
structure RunCfg where
  tiles : List Tile
  writerCkp : List (List Nat)
  nTiling : Nat
  nScan : Nat
  nDaqs : Nat
  daqHasAo : Nat → Bool
  daqHasDo : Nat → Bool
  daqHasCo : Nat → Bool
  nCams : Nat
  nRoutines : Nat
  nTransferDevs : Nat
  transfersPerDev : Nat → Nat

/-- Values observed at each `transfer_thread.is_alive()` call: at tile
`i`'s wait loop (which inspects the transfers started at tile `i - 1`)
and at the final wait after the tile loop. -/
structure RunEnv where
  aliveAt : Nat → Nat → Nat → Bool
  aliveFinal : Nat → Nat → Bool

/-- Observable events of `run`, tagged with the tile index they are
performed for (`tiles.length` marks the final wait after the loop). -/
inductive REv where
  /-- `tiling_stage.move_absolute_mm(..., wait=False)` (line 81). -/
  | moveTiling (tile st : Nat)
  /-- the `while tiling_stage.is_axis_moving()` settle wait (lines 84-90). -/
  | waitTiling (tile st : Nat)
  /-- `scanning_stage.move_absolute_mm(..., wait=False)` (line 99). -/
  | moveScan (tile st : Nat)
  /-- channel setup: device enables and per-device settings (lines 101-111). -/
  | channelSetup (tile : Nat)
  /-- `daq.add_task('ao')` (line 115). -/
  | addAoTask (tile d : Nat)
  /-- `daq.generate_waveforms('ao', ...)` (line 116). -/
  | genAoWaveforms (tile d : Nat)
  /-- `daq.write_ao_waveforms()` (line 117). -/
  | writeAoWaveforms (tile d : Nat)
  /-- `daq.add_task('do')` (line 119). -/
  | addDoTask (tile d : Nat)
  /-- `daq.generate_waveforms('do', ...)` (line 120). -/
  | genDoWaveforms (tile d : Nat)
  /-- `daq.write_do_waveforms()` (line 121). -/
  | writeDoWaveforms (tile d : Nat)
  /-- `daq.add_task('co', pulse_count)` with `pulse_count =
  self.chunk_count_px` (lines 122-124). -/
  | addCoTask (tile d pulses : Nat)
  /-- `routine.start(...)` (lines 127-136). -/
  | routineStart (tile r : Nat)
  /-- `self.acquisition_threads[camera_id].start()` (lines 148-160). -/
  | spawnThread (tile cam : Nat)
  /-- `self.acquisition_threads[camera_id].join()` (lines 163-165). -/
  | joinThread (tile cam : Nat)
  /-- `daq.stop()` after the capture threads are joined (lines 168-170). -/
  | daqStopRun (tile d : Nat)
  /-- `transfer_thread.is_alive()` (line 175 / line 194), recording the
  observed value. -/
  | checkAlive (tile dev tr : Nat) (alive : Bool)
  /-- `transfer_thread.wait_until_finished()` (line 177 / line 196). -/
  | waitTransfer (tile dev tr : Nat)
  /-- `transfer.filename = filenames[device_name]` with the current
  tile's filename (line 185). -/
  | setFilename (tile dev tr : Nat)
  /-- `transfer.start()` (line 187). -/
  | startTransfer (tile dev tr : Nat)
  deriving DecidableEq

/-- The tile an event was performed for. -/
def tileOf : REv → Nat
  | REv.moveTiling i _ => i
  | REv.waitTiling i _ => i
  | REv.moveScan i _ => i
  | REv.channelSetup i => i
  | REv.addAoTask i _ => i
  | REv.genAoWaveforms i _ => i
  | REv.writeAoWaveforms i _ => i
  | REv.addDoTask i _ => i
  | REv.genDoWaveforms i _ => i
  | REv.writeDoWaveforms i _ => i
  | REv.addCoTask i _ _ => i
  | REv.routineStart i _ => i
  | REv.spawnThread i _ => i
  | REv.joinThread i _ => i
  | REv.daqStopRun i _ => i
  | REv.checkAlive i _ _ _ => i
  | REv.waitTransfer i _ _ => i
  | REv.setFilename i _ _ => i
  | REv.startTransfer i _ _ => i

/-- The sanity check of lines 67-73: some writer's `chunk_count_px`
exceeds the tile's frame count `tile['steps']`. -/
def badTile (cfg : RunCfg) (t : Tile) : Bool :=
  cfg.writerCkp.any (fun dev => dev.any (fun c => t.steps < c))

/-- The wait on the previous tile's transfers (lines 172-178); the
`self.transfer_threads` dict is empty on the first tile. -/
def transferWaitEvents (cfg : RunCfg) (env : RunEnv) (i : Nat) : List REv :=
  if i = 0 then [] else
  (List.range cfg.nTransferDevs).flatMap (fun dev =>
    (List.range (cfg.transfersPerDev dev)).flatMap (fun tr =>
      REv.checkAlive i dev tr (env.aliveAt i dev tr) ::
      (if env.aliveAt i dev tr then [REv.waitTransfer i dev tr] else [])))

/-- Starting this tile's transfers with this tile's filenames
(lines 180-187). -/
def transferStartEvents (cfg : RunCfg) (i : Nat) : List REv :=
  (List.range cfg.nTransferDevs).flatMap (fun dev =>
    (List.range (cfg.transfersPerDev dev)).flatMap (fun tr =>
      [REv.setFilename i dev tr, REv.startTransfer i dev tr]))

/-- The final wait on the last tile's transfers (lines 189-196). -/
def finalWaitEvents (cfg : RunCfg) (env : RunEnv) : List REv :=
  (List.range cfg.nTransferDevs).flatMap (fun dev =>
    (List.range (cfg.transfersPerDev dev)).flatMap (fun tr =>
      REv.checkAlive cfg.tiles.length dev tr (env.aliveFinal dev tr) ::
      (if env.aliveFinal dev tr then
        [REv.waitTransfer cfg.tiles.length dev tr] else [])))

/-- Events of one iteration of the tile loop (lines 55-187), after the
sanity check of lines 67-73 passed; `ckp` is `self.chunk_count_px`. -/
def tileEvents (cfg : RunCfg) (env : RunEnv) (ckp : Nat) (i : Nat) :
    List REv :=
  (List.range cfg.nTiling).map (REv.moveTiling i) ++
  (List.range cfg.nTiling).map (REv.waitTiling i) ++
  (List.range cfg.nScan).map (REv.moveScan i) ++
  [REv.channelSetup i] ++
  (List.range cfg.nDaqs).flatMap (fun d =>
    (if cfg.daqHasAo d then
      [REv.addAoTask i d, REv.genAoWaveforms i d, REv.writeAoWaveforms i d]
      else []) ++
    (if cfg.daqHasDo d then
      [REv.addDoTask i d, REv.genDoWaveforms i d, REv.writeDoWaveforms i d]
      else []) ++
    (if cfg.daqHasCo d then [REv.addCoTask i d ckp] else [])) ++
  (List.range cfg.nRoutines).map (REv.routineStart i) ++
  (List.range cfg.nCams).map (REv.spawnThread i) ++
  (List.range cfg.nCams).map (REv.joinThread i) ++
  (List.range cfg.nDaqs).map (REv.daqStopRun i) ++
  transferWaitEvents cfg env i ++
  transferStartEvents cfg i

/-- The tile loop of `run`: process tiles in order; a tile failing the
sanity check raises `ValueError` (flag `true`) before performing any of
its events; after the loop, wait on the final tile's transfers. -/
def runGo (cfg : RunCfg) (env : RunEnv) (ckp : Nat) :
    Nat → List Tile → List REv × Bool
  | _, [] => (finalWaitEvents cfg env, false)
  | i, t :: rest =>
    if badTile cfg t then ([], true)
    else
      let r := runGo cfg env ckp (i + 1) rest
      (tileEvents cfg env ckp i ++ r.1, r.2)

/-- Trace of `run` (lines 51-196): the events performed, and whether a
`ValueError` terminated the run. -/
def runTrace (cfg : RunCfg) (env : RunEnv) (ckp : Nat) : List REv × Bool :=
  runGo cfg env ckp 0 cfg.tiles

/-- The inner writer loop of `_verify_acquisition` (lines 42-48):
`chunk_size` accumulator starts as `None`, the first writer sets it, and
any writer whose `chunk_count_px` differs raises `ValueError`. -/
def verifyDevice : Option Nat → List Nat → Except Unit (Option Nat)
  | acc, [] => Except.ok acc
  | none, c :: r => verifyDevice (some c) r
  | some v, c :: r =>
    if c ≠ v then Except.error () else verifyDevice (some v) r

/-- `_verify_acquisition` (lines 37-49): iterate devices then writers;
on success `self.chunk_count_px` is set to the common value. -/
def verifyChunks : List (List Nat) → Option Nat → Except Unit (Option Nat)
  | [], acc => Except.ok acc
  | dev :: rest, acc =>
    match verifyDevice acc dev with
    | Except.error e => Except.error e
    | Except.ok acc' => verifyChunks rest acc'

/-- A session: `__init__` runs `_verify_acquisition` (line 31) before
`run` can ever be called, so a chunk-size mismatch aborts with no `run`
event at all.  (`getD 0` is never reached in the theorems below, which
assume at least one writer exists, as the engine requires.) -/
def sessionTrace (cfg : RunCfg) (env : RunEnv) : List REv × Bool :=
  match verifyChunks cfg.writerCkp none with
  | Except.error _ => ([], true)
  | Except.ok ckp => runTrace cfg env (ckp.getD 0)

/-- Events of `stop_acquisition` (lines 333-342): set the stop flag, join
every per-camera capture thread, then raise `RuntimeError`. -/
inductive SEv where
  | setStopFlag
  | joinCapture (cam : Nat)
  | raiseRuntimeError
  deriving DecidableEq, BEq

/-- `stop_acquisition` with `n` per-camera capture threads registered in
`self.acquisition_threads`. -/
def stopAcquisitionTrace (n : Nat) : List SEv :=
  SEv.setStopFlag :: (List.range n).map SEv.joinCapture ++
    [SEv.raiseRuntimeError]

/-- Mutable writer fields assigned by `engine` (lines 204-215). -/
structure WriterCfg where
  rowCountPx : Nat
  columnCountPx : Nat
  frameCountPx : Nat
  xPosMm : Rat
  yPosMm : Rat
  zPosMm : Rat
  xVoxelSizeUm : Rat
  yVoxelSizeUm : Rat
  zVoxelSizeUm : Rat
  filename : String
  channel : String

/-- The writer-setup block of `engine` (lines 204-215): every field is
assigned unconditionally from the camera, the tile and the filename;
in particular `x_voxel_size_um = 0.748`, `y_voxel_size_um = 0.748` and
`z_voxel_size_um = tile['step_size']`. -/
def engineSetupWriter (w : WriterCfg) (t : Tile) (camHeightPx camWidthPx : Nat)
    (fname : String) : WriterCfg :=
  { w with
    rowCountPx := camHeightPx
    columnCountPx := camWidthPx
    frameCountPx := t.steps
    xPosMm := t.posX
    yPosMm := t.posY
    zPosMm := t.posZ
    xVoxelSizeUm := 0.748
    yVoxelSizeUm := 0.748
    zVoxelSizeUm := t.stepSize
    filename := fname
    channel := t.channel }

/-! ### Claim C10: unconditional voxel-size overwrite -/

/-- C10: for every tile and writer, before capture begins the engine
unconditionally overwrites the writer's voxel-size fields — x and y
voxel size to 0.748 µm and z voxel size to the tile's `step_size` —
regardless of any voxel size previously configured on the writer. -/
theorem claim10_voxel_size_overwrite (w : WriterCfg) (t : Tile)
    (camHeightPx camWidthPx : Nat) (fname : String) :
    (engineSetupWriter w t camHeightPx camWidthPx fname).xVoxelSizeUm
      = 0.748 ∧
    (engineSetupWriter w t camHeightPx camWidthPx fname).yVoxelSizeUm
      = 0.748 ∧
    (engineSetupWriter w t camHeightPx camWidthPx fname).zVoxelSizeUm
      = t.stepSize :=
  ⟨rfl, rfl, rfl⟩

/-! ### Claim C8: stop joins every capture thread before returning -/

theorem takeWhile_append_of_all {α : Type} (p : α → Bool) (l r : List α)
    (h : ∀ x ∈ l, p x = true) :
    (l ++ r).takeWhile p = l ++ r.takeWhile p := by
  induction l with
  | nil => rfl
  | cons x t ih =>
    rw [List.cons_append, List.takeWhile_cons, h x (List.mem_cons_self x t),
      if_pos rfl, ih (fun x' hx' => h x' (List.mem_cons_of_mem x hx')),
      List.cons_append]

/-- C8: after a cancellation request, `stop_acquisition` joins every
per-camera capture thread in `self.acquisition_threads` before
returning control to its caller (which it does by raising
`RuntimeError`): every join event occurs strictly before the raise, and
the raise is the final action. -/
theorem claim8_stop_joins_before_return (n : Nat) :
    (∀ cam, cam < n → SEv.joinCapture cam ∈
      (stopAcquisitionTrace n).takeWhile
        (fun e => !(e == SEv.raiseRuntimeError))) ∧
    (stopAcquisitionTrace n).getLast? = some SEv.raiseRuntimeError := by
  have htw : (stopAcquisitionTrace n).takeWhile
      (fun e => !(e == SEv.raiseRuntimeError)) =
      SEv.setStopFlag :: (List.range n).map SEv.joinCapture := by
    rw [stopAcquisitionTrace,
      takeWhile_append_of_all _ _ _ (fun x hx => by
        rcases List.mem_cons.mp hx with rfl | hx
        · rfl
        · simp only [List.mem_map] at hx
          obtain ⟨cam, _, rfl⟩ := hx
          rfl)]
    rw [show ([SEv.raiseRuntimeError].takeWhile
      (fun e => !(e == SEv.raiseRuntimeError))) = [] from rfl,
      List.append_nil]
  constructor
  · intro cam hcam
    rw [htw]
    exact List.mem_cons_of_mem _ (List.mem_map.mpr ⟨cam,
      List.mem_range.mpr hcam, rfl⟩)
  · rw [stopAcquisitionTrace, List.getLast?_concat]

/-- C8 witness: with two capture threads, both joins happen before the
raise, and the raise is last. -/
theorem claim8_stop_joins_before_return_witness :
    SEv.joinCapture 1 ∈ (stopAcquisitionTrace 2).takeWhile
      (fun e => !(e == SEv.raiseRuntimeError)) ∧
    (stopAcquisitionTrace 2).getLast? = some SEv.raiseRuntimeError :=
  ⟨(claim8_stop_joins_before_return 2).1 1 (by decide),
    (claim8_stop_joins_before_return 2).2⟩

/-! ### Claim C3: a short tile aborts the run before any of its events -/

theorem tileEvents_tileOf (cfg : RunCfg) (env : RunEnv) (ckp i : Nat) :
    ∀ e ∈ tileEvents cfg env ckp i, tileOf e = i := by
  intro e he
  simp only [tileEvents, transferWaitEvents, transferStartEvents,
    List.mem_append, List.mem_map, List.mem_flatMap, List.mem_range,
    List.mem_cons, List.mem_singleton, List.mem_ite_nil_right,
    List.mem_ite_nil_left, List.not_mem_nil, or_false] at he
  rcases he with
    (((((((((⟨st, _, rfl⟩ | ⟨st, _, rfl⟩) | ⟨st, _, rfl⟩) | rfl) |
      ⟨d, _, hd⟩) | ⟨r, _, rfl⟩) | ⟨cam, _, rfl⟩) | ⟨cam, _, rfl⟩) |
      ⟨d, _, rfl⟩) | ⟨_, dev, _, tr, _, hw⟩) | ⟨dev, _, tr, _, hs⟩
  · rfl
  · rfl
  · rfl
  · rfl
  · rcases hd with (⟨_, rfl | rfl | rfl⟩ | ⟨_, rfl | rfl | rfl⟩) | ⟨_, rfl⟩
      <;> rfl
  · rfl
  · rfl
  · rfl
  · rfl
  · rcases hw with rfl | ⟨_, rfl⟩ <;> rfl
  · rcases hs with rfl | rfl <;> rfl

theorem runGo_first_bad (cfg : RunCfg) (env : RunEnv) (ckp : Nat) :
    ∀ (l : List Tile) (i0 i : Nat) (t : Tile), l.get? i = some t →
      badTile cfg t = true →
      (∀ j tj, j < i → l.get? j = some tj → badTile cfg tj = false) →
      (runGo cfg env ckp i0 l).2 = true ∧
      ∀ e ∈ (runGo cfg env ckp i0 l).1, tileOf e < i0 + i := by
  intro l
  induction l with
  | nil =>
    intro i0 i t hget
    rw [List.get?_nil] at hget
    exact absurd hget (by simp)
  | cons t0 rest ih =>
    intro i0 i t hget hbad hgood
    cases i with
    | zero =>
      rw [List.get?_cons_zero] at hget
      obtain rfl : t0 = t := Option.some.inj hget
      rw [runGo, if_pos hbad]
      exact ⟨rfl, fun e he => absurd he (List.not_mem_nil e)⟩
    | succ j =>
      have h0 : badTile cfg t0 = false :=
        hgood 0 t0 (by omega) List.get?_cons_zero
      obtain ⟨ih1, ih2⟩ := ih (i0 + 1) j t
        (by rw [List.get?_cons_succ] at hget; exact hget) hbad
        (fun j' tj hj' hg => hgood (j' + 1) tj (by omega)
          (by rw [List.get?_cons_succ]; exact hg))
      rw [runGo, if_neg (by rw [h0]; exact Bool.false_ne_true)]
      constructor
      · exact ih1
      · intro e he
        rcases List.mem_append.mp he with he | he
        · rw [tileEvents_tileOf cfg env ckp i0 e he]
          omega
        · have := ih2 e he
          omega

/-- C3: if the scan plan's first tile violating the sanity check of
lines 67-73 (some writer's `chunk_count_px` exceeds `tile['steps']`) is
tile `i`, then `run` raises `ValueError` there, and no event is ever
performed for tile `i` (or any later tile): no stage motion, no DAQ
task arming or waveform write, and no capture thread spawned for that
tile. -/
theorem claim3_short_tile_fails_precapture (cfg : RunCfg) (env : RunEnv)
    (ckp i : Nat) (t : Tile) (hget : cfg.tiles.get? i = some t)
    (hbad : badTile cfg t = true)
    (hgood : ∀ j tj, j < i → cfg.tiles.get? j = some tj →
      badTile cfg tj = false) :
    (runTrace cfg env ckp).2 = true ∧
    ∀ e ∈ (runTrace cfg env ckp).1, tileOf e < i := by
  obtain ⟨h1, h2⟩ := runGo_first_bad cfg env ckp cfg.tiles 0 i t hget hbad
    hgood
  refine ⟨h1, fun e he => ?_⟩
  have := h2 e he
  omega

/-! ### Claim C4: uniform chunk size validated at startup -/

theorem verifyDevice_append (l1 l2 : List Nat) :
    ∀ acc, verifyDevice acc (l1 ++ l2) =
      match verifyDevice acc l1 with
      | Except.error e => Except.error e
      | Except.ok acc' => verifyDevice acc' l2 := by
  induction l1 with
  | nil =>
    intro acc
    cases acc <;> rfl
  | cons c r ih =>
    intro acc
    match acc with
    | none =>
      rw [List.cons_append]
      exact ih (some c)
    | some v =>
      rw [List.cons_append]
      by_cases hc : c ≠ v
      · show (if c ≠ v then Except.error () else _) = _
        rw [if_pos hc]
        show _ = (match (if c ≠ v then Except.error () else
          verifyDevice (some v) r : Except Unit (Option Nat)) with
          | Except.error e => Except.error e
          | Except.ok acc' => verifyDevice acc' l2)
        rw [if_pos hc]
      · show (if c ≠ v then Except.error () else _) = _
        rw [if_neg hc]
        have := ih (some v)
        rw [this]
        show _ = (match (if c ≠ v then Except.error () else
          verifyDevice (some v) r : Except Unit (Option Nat)) with
          | Except.error e => Except.error e
          | Except.ok acc' => verifyDevice acc' l2)
        rw [if_neg hc]

theorem verifyChunks_flatten (ws : List (List Nat)) :
    ∀ acc, verifyChunks ws acc = verifyDevice acc ws.flatten := by
  induction ws with
  | nil =>
    intro acc
    cases acc <;> rfl
  | cons dev rest ih =>
    intro acc
    rw [List.flatten_cons, verifyDevice_append]
    show (match verifyDevice acc dev with
      | Except.error e => Except.error e
      | Except.ok acc' => verifyChunks rest acc') = _
    cases h : verifyDevice acc dev with
    | error e => rfl
    | ok acc' => exact ih acc'

theorem verifyDevice_all {l : List Nat} {v : Nat} (h : ∀ c ∈ l, c = v) :
    verifyDevice (some v) l = Except.ok (some v) := by
  induction l with
  | nil => rfl
  | cons c r ih =>
    show (if c ≠ v then Except.error () else verifyDevice (some v) r) = _
    rw [if_neg (fun hn => hn (h c (List.mem_cons_self c r)))]
    exact ih (fun c' hc' => h c' (List.mem_cons_of_mem c hc'))

theorem verifyDevice_mismatch {l : List Nat} {v : Nat}
    (h : ∃ c ∈ l, c ≠ v) : verifyDevice (some v) l = Except.error () := by
  induction l with
  | nil =>
    obtain ⟨c, hc, _⟩ := h
    exact absurd hc (List.not_mem_nil c)
  | cons c r ih =>
    show (if c ≠ v then Except.error () else verifyDevice (some v) r) = _
    by_cases hc : c ≠ v
    · rw [if_pos hc]
    · rw [if_neg hc]
      obtain ⟨c', hc', hne⟩ := h
      rcases List.mem_cons.mp hc' with rfl | hmem
      · exact absurd hne hc
      · exact ih ⟨c', hmem, hne⟩

/-- C4: if any two writers (across all devices) are configured with
different `chunk_count_px` values, `_verify_acquisition` raises
`ValueError` in `__init__`, before `run` can perform any stage motion
or trigger activity (the session trace is empty); if all writers share
one value, validation succeeds and that value becomes the session chunk
size `self.chunk_count_px` used by `run`. -/
theorem claim4_uniform_chunk_size (cfg : RunCfg) (env : RunEnv) :
    (∀ c₁ ∈ cfg.writerCkp.flatten, ∀ c₂ ∈ cfg.writerCkp.flatten, c₁ ≠ c₂ →
      verifyChunks cfg.writerCkp none = Except.error () ∧
      sessionTrace cfg env = ([], true)) ∧
    (∀ v, cfg.writerCkp.flatten ≠ [] →
      (∀ c ∈ cfg.writerCkp.flatten, c = v) →
      verifyChunks cfg.writerCkp none = Except.ok (some v) ∧
      sessionTrace cfg env = runTrace cfg env v) := by
  constructor
  · intro c1 h1 c2 h2 hne
    have herr : verifyChunks cfg.writerCkp none = Except.error () := by
      rw [verifyChunks_flatten]
      rcases hl : cfg.writerCkp.flatten with _ | ⟨c, r⟩
      · rw [hl] at h1
        exact absurd h1 (List.not_mem_nil c1)
      · rw [hl] at h1 h2
        show verifyDevice (some c) r = Except.error ()
        by_cases hx : ∃ x ∈ r, x ≠ c
        · exact verifyDevice_mismatch hx
        · push_neg at hx
          exfalso
          have e1 : c1 = c := by
            rcases List.mem_cons.mp h1 with rfl | h
            · rfl
            · exact hx c1 h
          have e2 : c2 = c := by
            rcases List.mem_cons.mp h2 with rfl | h
            · rfl
            · exact hx c2 h
          rw [e1, e2] at hne
          exact hne rfl
    refine ⟨herr, ?_⟩
    rw [sessionTrace, herr]
  · intro v hne hall
    have hok : verifyChunks cfg.writerCkp none = Except.ok (some v) := by
      rw [verifyChunks_flatten]
      rcases hl : cfg.writerCkp.flatten with _ | ⟨c, r⟩
      · exact absurd hl hne
      · rw [hl] at hall
        have hc : c = v := hall c (List.mem_cons_self c r)
        subst hc
        show verifyDevice (some c) r = Except.ok (some c)
        exact verifyDevice_all
          (fun c' hc' => hall c' (List.mem_cons_of_mem c hc'))
    refine ⟨hok, ?_⟩
    rw [sessionTrace, hok]
    rfl

/-- A well-formed tile (10 frames). -/
def goodTile : Tile :=
  { steps := 10, stepSize := 1, posX := 0, posY := 0, posZ := 0,
    channel := "488" }

/-- A tile with fewer frames (2) than the chunk size (4). -/
def shortTile : Tile :=
  { steps := 2, stepSize := 1, posX := 0, posY := 0, posZ := 0,
    channel := "488" }

/-- A small instrument with one of each device and chunk size 4. -/
def smallRunCfg : RunCfg :=
  { tiles := [goodTile, shortTile], writerCkp := [[4]], nTiling := 1,
    nScan := 1, nDaqs := 1, daqHasAo := fun _ => true,
    daqHasDo := fun _ => true, daqHasCo := fun _ => true, nCams := 1,
    nRoutines := 0, nTransferDevs := 1, transfersPerDev := fun _ => 1 }

/-- Transfers observed alive at every check. -/
def aliveRunEnv : RunEnv :=
  { aliveAt := fun _ _ _ => true, aliveFinal := fun _ _ => true }

/-- C3 witness: with tiles `[goodTile, shortTile]` and chunk size 4,
`run` raises and never spawns a capture thread for tile 1. -/
theorem claim3_short_tile_fails_precapture_witness :
    (runTrace smallRunCfg aliveRunEnv 4).2 = true ∧
    REv.spawnThread 1 0 ∉ (runTrace smallRunCfg aliveRunEnv 4).1 := by
  have h := claim3_short_tile_fails_precapture smallRunCfg aliveRunEnv 4 1
    shortTile rfl rfl
    (fun j tj hj hg => by
      obtain rfl : j = 0 := by omega
      obtain rfl : tj = goodTile := (Option.some.inj hg).symm
      rfl)
  exact ⟨h.1, fun hmem => Nat.lt_irrefl 1 (h.2 _ hmem)⟩

/-- Writers configured with chunk sizes 8, 8 and 16 across devices. -/
def mismatchRunCfg : RunCfg :=
  { smallRunCfg with tiles := [goodTile], writerCkp := [[8], [8], [16]] }

/-- Writers uniformly configured with chunk size 8. -/
def uniformRunCfg : RunCfg :=
  { smallRunCfg with tiles := [goodTile], writerCkp := [[8], [8]] }

/-- C4 witness: the specification's end-to-end scenario — two writers at
`chunk_count_px = 8` validate; a third at 16 causes immediate fatal
rejection with no stage motion or trigger activity; on success 8
becomes the session chunk size. -/
theorem claim4_uniform_chunk_size_witness :
    verifyChunks [[8], [8], [16]] none = Except.error () ∧
    sessionTrace mismatchRunCfg aliveRunEnv = ([], true) ∧
    verifyChunks [[8], [8]] none = Except.ok (some 8) ∧
    sessionTrace uniformRunCfg aliveRunEnv =
      runTrace uniformRunCfg aliveRunEnv 8 := by
  have h1 := (claim4_uniform_chunk_size mismatchRunCfg aliveRunEnv).1 8
    (by decide) 16 (by decide) (by decide)
  have h2 := (claim4_uniform_chunk_size uniformRunCfg aliveRunEnv).2 8
    (by decide) (by decide)
  exact ⟨h1.1, h1.2, h2.1, h2.2⟩

/-! ### Claim C7: transfers waited on before restart, and at run exit

`trStep`/`trOk` track transfers observed alive (`is_alive() == True`)
whose `wait_until_finished()` has not yet been performed: starting a
device's transfer is only allowed once no such wait is pending for it,
and at run exit no observed-alive transfer may be left unwaited.
`fnStep`/`fnOk` check that every `transfer.start()` immediately follows
the assignment of the current tile's filename to that transfer. -/

def trStep : List (Nat × Nat) → REv → List (Nat × Nat)
  | s, REv.checkAlive _ d tr true => (d, tr) :: s
  | s, REv.waitTransfer _ d tr => s.filter (fun x => x ≠ (d, tr))
  | s, _ => s

def trOk : List (Nat × Nat) → REv → Bool
  | s, REv.startTransfer _ d tr => !(s.contains (d, tr))
  | _, _ => true

def fnStep : Option REv → REv → Option REv := fun _ e => some e

def fnOk : Option REv → REv → Bool
  | s, REv.startTransfer i d tr => s == some (REv.setFilename i d tr)
  | _, _ => true

theorem tileHead_shape (cfg : RunCfg) (ckp i : Nat) :
    ∀ e ∈ ((List.range cfg.nTiling).map (REv.moveTiling i) ++
      (List.range cfg.nTiling).map (REv.waitTiling i) ++
      (List.range cfg.nScan).map (REv.moveScan i) ++
      [REv.channelSetup i] ++
      (List.range cfg.nDaqs).flatMap (fun d =>
        (if cfg.daqHasAo d then
          [REv.addAoTask i d, REv.genAoWaveforms i d, REv.writeAoWaveforms i d]
          else []) ++
        (if cfg.daqHasDo d then
          [REv.addDoTask i d, REv.genDoWaveforms i d, REv.writeDoWaveforms i d]
          else []) ++
        (if cfg.daqHasCo d then [REv.addCoTask i d ckp] else [])) ++
      (List.range cfg.nRoutines).map (REv.routineStart i) ++
      (List.range cfg.nCams).map (REv.spawnThread i) ++
      (List.range cfg.nCams).map (REv.joinThread i) ++
      (List.range cfg.nDaqs).map (REv.daqStopRun i)),
      (∀ s, trStep s e = s) ∧ (∀ s, trOk s e = true) ∧
      (∀ s, fnOk s e = true) := by
  intro e he
  simp only [List.mem_append, List.mem_map, List.mem_flatMap, List.mem_range,
    List.mem_cons, List.mem_singleton, List.mem_ite_nil_right,
    List.not_mem_nil, or_false] at he
  rcases he with
    ((((((((⟨st, _, rfl⟩ | ⟨st, _, rfl⟩) | ⟨st, _, rfl⟩) | rfl) |
      ⟨d, _, hd⟩) | ⟨r, _, rfl⟩) | ⟨cam, _, rfl⟩) | ⟨cam, _, rfl⟩) |
      ⟨d, _, rfl⟩)
  · exact ⟨fun s => rfl, fun s => rfl, fun s => rfl⟩
  · exact ⟨fun s => rfl, fun s => rfl, fun s => rfl⟩
  · exact ⟨fun s => rfl, fun s => rfl, fun s => rfl⟩
  · exact ⟨fun s => rfl, fun s => rfl, fun s => rfl⟩
  · rcases hd with (⟨_, rfl | rfl | rfl⟩ | ⟨_, rfl | rfl | rfl⟩) | ⟨_, rfl⟩
      <;> exact ⟨fun s => rfl, fun s => rfl, fun s => rfl⟩
  · exact ⟨fun s => rfl, fun s => rfl, fun s => rfl⟩
  · exact ⟨fun s => rfl, fun s => rfl, fun s => rfl⟩
  · exact ⟨fun s => rfl, fun s => rfl, fun s => rfl⟩
  · exact ⟨fun s => rfl, fun s => rfl, fun s => rfl⟩

theorem waitSeg_shape (alv : Nat → Nat → Bool) (iTag : Nat)
    (devs : List Nat) (perDev : Nat → Nat) :
    ∀ e ∈ devs.flatMap (fun dev =>
        (List.range (perDev dev)).flatMap (fun tr =>
          REv.checkAlive iTag dev tr (alv dev tr) ::
          (if alv dev tr then [REv.waitTransfer iTag dev tr] else []))),
      (∃ dev tr, e = REv.checkAlive iTag dev tr (alv dev tr) ∨
        e = REv.waitTransfer iTag dev tr) := by
  intro e he
  simp only [List.mem_flatMap, List.mem_range, List.mem_cons,
    List.mem_ite_nil_right, List.mem_singleton, List.not_mem_nil,
    or_false] at he
  obtain ⟨dev, _, tr, _, he⟩ := he
  rcases he with rfl | ⟨_, rfl⟩
  · exact ⟨dev, tr, Or.inl rfl⟩
  · exact ⟨dev, tr, Or.inr rfl⟩

theorem tr_waitDev (alv : Nat → Nat → Bool) (iTag dev : Nat) :
    ∀ trs : List Nat,
      traceAll trStep trOk []
        (trs.flatMap (fun tr =>
          REv.checkAlive iTag dev tr (alv dev tr) ::
          (if alv dev tr then [REv.waitTransfer iTag dev tr] else [])))
        = true ∧
      (trs.flatMap (fun tr =>
          REv.checkAlive iTag dev tr (alv dev tr) ::
          (if alv dev tr then [REv.waitTransfer iTag dev tr] else []))).foldl
        trStep [] = [] := by
  intro trs
  induction trs with
  | nil => exact ⟨rfl, rfl⟩
  | cons tr rest ih =>
    rw [List.flatMap_cons]
    cases halv : alv dev tr
    · have hck : trStep [] (REv.checkAlive iTag dev tr false) = [] := rfl
      constructor
      · rw [show (REv.checkAlive iTag dev tr false ::
          (if false = true then [REv.waitTransfer iTag dev tr] else [])) ++
          rest.flatMap _ = REv.checkAlive iTag dev tr false ::
          rest.flatMap (fun tr =>
            REv.checkAlive iTag dev tr (alv dev tr) ::
            (if alv dev tr then [REv.waitTransfer iTag dev tr] else []))
          from rfl, traceAll_cons, hck, ih.1]
        rfl
      · rw [show (REv.checkAlive iTag dev tr false ::
          (if false = true then [REv.waitTransfer iTag dev tr] else [])) ++
          rest.flatMap _ = REv.checkAlive iTag dev tr false ::
          rest.flatMap (fun tr =>
            REv.checkAlive iTag dev tr (alv dev tr) ::
            (if alv dev tr then [REv.waitTransfer iTag dev tr] else []))
          from rfl, List.foldl_cons, hck, ih.2]
    · have hck : trStep [] (REv.checkAlive iTag dev tr true)
          = [(dev, tr)] := rfl
      have hwt : trStep [(dev, tr)] (REv.waitTransfer iTag dev tr) = [] := by
        show ([(dev, tr)].filter (fun x => decide (x ≠ (dev, tr)))) = []
        simp
      constructor
      · rw [show (REv.checkAlive iTag dev tr true ::
          (if true = true then [REv.waitTransfer iTag dev tr] else [])) ++
          rest.flatMap _ = REv.checkAlive iTag dev tr true ::
          REv.waitTransfer iTag dev tr ::
          rest.flatMap (fun tr =>
            REv.checkAlive iTag dev tr (alv dev tr) ::
            (if alv dev tr then [REv.waitTransfer iTag dev tr] else []))
          from rfl, traceAll_cons, traceAll_cons, hck, hwt, ih.1]
        rfl
      · rw [show (REv.checkAlive iTag dev tr true ::
          (if true = true then [REv.waitTransfer iTag dev tr] else [])) ++
          rest.flatMap _ = REv.checkAlive iTag dev tr true ::
          REv.waitTransfer iTag dev tr ::
          rest.flatMap (fun tr =>
            REv.checkAlive iTag dev tr (alv dev tr) ::
            (if alv dev tr then [REv.waitTransfer iTag dev tr] else []))
          from rfl, List.foldl_cons, List.foldl_cons, hck, hwt, ih.2]

theorem tr_waitSeg (alv : Nat → Nat → Bool) (iTag : Nat)
    (perDev : Nat → Nat) :
    ∀ devs : List Nat,
      traceAll trStep trOk []
        (devs.flatMap (fun dev =>
          (List.range (perDev dev)).flatMap (fun tr =>
            REv.checkAlive iTag dev tr (alv dev tr) ::
            (if alv dev tr then [REv.waitTransfer iTag dev tr] else []))))
        = true ∧
      (devs.flatMap (fun dev =>
          (List.range (perDev dev)).flatMap (fun tr =>
            REv.checkAlive iTag dev tr (alv dev tr) ::
            (if alv dev tr then [REv.waitTransfer iTag dev tr] else [])))).foldl
        trStep [] = [] := by
  intro devs
  induction devs with
  | nil => exact ⟨rfl, rfl⟩
  | cons dev rest ih =>
    obtain ⟨h1, h2⟩ := tr_waitDev alv iTag dev (List.range (perDev dev))
    constructor
    · rw [List.flatMap_cons, traceAll_append, h1, h2, ih.1]
      rfl
    · rw [List.flatMap_cons, List.foldl_append, h2, ih.2]

theorem tr_startSeg (cfg : RunCfg) (i : Nat) :
    traceAll trStep trOk [] (transferStartEvents cfg i) = true ∧
    (transferStartEvents cfg i).foldl trStep [] = [] := by
  refine traceAll_of_fixed _ _ _ _ (fun e he => ?_) (fun e he => ?_) <;>
  · simp only [transferStartEvents, List.mem_flatMap, List.mem_range,
      List.mem_cons, List.mem_singleton, List.not_mem_nil, or_false] at he
    obtain ⟨dev, _, tr, _, rfl | rfl⟩ := he <;> rfl

theorem tr_tile (cfg : RunCfg) (env : RunEnv) (ckp i : Nat) :
    traceAll trStep trOk [] (tileEvents cfg env ckp i) = true ∧
    (tileEvents cfg env ckp i).foldl trStep [] = [] := by
  have hH := tileHead_shape cfg ckp i
  obtain ⟨hH1, hH2⟩ := traceAll_of_fixed trStep trOk [] _
    (fun e he => (hH e he).1 []) (fun e he => (hH e he).2.1 [])
  have hW : traceAll trStep trOk [] (transferWaitEvents cfg env i) = true ∧
      (transferWaitEvents cfg env i).foldl trStep [] = [] := by
    rw [transferWaitEvents]
    split
    · exact ⟨rfl, rfl⟩
    · exact tr_waitSeg (env.aliveAt i) i (cfg.transfersPerDev) _
  obtain ⟨hS1, hS2⟩ := tr_startSeg cfg i
  constructor
  · rw [tileEvents, traceAll_append, traceAll_append, hH2,
      List.foldl_append, hH2, hW.2, hH1, hW.1, hS1]
    rfl
  · rw [tileEvents, List.foldl_append, List.foldl_append, hH2, hW.2, hS2]

theorem fn_startDev (i dev : Nat) :
    ∀ (trs : List Nat) (prev : Option REv),
      traceAll fnStep fnOk prev
        (trs.flatMap (fun tr =>
          [REv.setFilename i dev tr, REv.startTransfer i dev tr])) = true := by
  intro trs
  induction trs with
  | nil => intro prev; rfl
  | cons tr rest ih =>
    intro prev
    rw [List.flatMap_cons]
    rw [show ([REv.setFilename i dev tr, REv.startTransfer i dev tr] ++
      rest.flatMap (fun tr =>
        [REv.setFilename i dev tr, REv.startTransfer i dev tr])) =
      REv.setFilename i dev tr :: REv.startTransfer i dev tr ::
      rest.flatMap (fun tr =>
        [REv.setFilename i dev tr, REv.startTransfer i dev tr]) from rfl,
      traceAll_cons, traceAll_cons]
    have h1 : fnOk prev (REv.setFilename i dev tr) = true := by
      cases prev with
      | none => rfl
      | some e => cases e <;> rfl
    have h2 : fnOk (fnStep prev (REv.setFilename i dev tr))
        (REv.startTransfer i dev tr) = true := by
      show (some (REv.setFilename i dev tr) ==
        some (REv.setFilename i dev tr)) = true
      simp
    rw [h1, h2, ih]
    rfl

theorem fn_tile (cfg : RunCfg) (env : RunEnv) (ckp i : Nat) :
    ∀ prev : Option REv,
      traceAll fnStep fnOk prev (tileEvents cfg env ckp i) = true := by
  intro prev
  have hH := tileHead_shape cfg ckp i
  have hW := waitSeg_shape (env.aliveAt i) i (List.range cfg.nTransferDevs)
    cfg.transfersPerDev
  have hS : ∀ p : Option REv,
      traceAll fnStep fnOk p (transferStartEvents cfg i) = true := by
    intro p
    rw [transferStartEvents]
    induction (List.range cfg.nTransferDevs) generalizing p with
    | nil => rfl
    | cons dev rest ih =>
      rw [List.flatMap_cons, traceAll_append, fn_startDev, ih]
      rfl
  rw [tileEvents, traceAll_append, traceAll_append,
    traceAll_of_ok _ _ _ (fun s e he => (hH e he).2.2 s) prev]
  rw [show transferWaitEvents cfg env i =
    (if i = 0 then [] else (List.range cfg.nTransferDevs).flatMap (fun dev =>
      (List.range (cfg.transfersPerDev dev)).flatMap (fun tr =>
        REv.checkAlive i dev tr (env.aliveAt i dev tr) ::
        (if env.aliveAt i dev tr then [REv.waitTransfer i dev tr] else []))))
    from rfl]
  have hWa : ∀ p : Option REv, traceAll fnStep fnOk p
      (if i = 0 then [] else
        (List.range cfg.nTransferDevs).flatMap (fun dev =>
        (List.range (cfg.transfersPerDev dev)).flatMap (fun tr =>
          REv.checkAlive i dev tr (env.aliveAt i dev tr) ::
          (if env.aliveAt i dev tr then [REv.waitTransfer i dev tr] else []))))
      = true := by
    intro p
    split
    · rfl
    · refine traceAll_of_ok _ _ _ (fun s e he => ?_) p
      rcases hW e he with ⟨dev, tr, rfl | rfl⟩ <;> rfl
  rw [hWa, hS]
  rfl

theorem finalWait_fnOk (cfg : RunCfg) (env : RunEnv) :
    ∀ p : Option REv,
      traceAll fnStep fnOk p (finalWaitEvents cfg env) = true := by
  intro p
  refine traceAll_of_ok _ _ _ (fun s e he => ?_) p
  rcases waitSeg_shape env.aliveFinal cfg.tiles.length
    (List.range cfg.nTransferDevs) cfg.transfersPerDev e he with
    ⟨dev, tr, rfl | rfl⟩ <;> rfl

theorem tr_runGo (cfg : RunCfg) (env : RunEnv) (ckp : Nat) :
    ∀ (l : List Tile) (i0 : Nat),
      traceAll trStep trOk [] (runGo cfg env ckp i0 l).1 = true ∧
      (runGo cfg env ckp i0 l).1.foldl trStep [] = [] ∧
      ∀ prev, traceAll fnStep fnOk prev (runGo cfg env ckp i0 l).1
        = true := by
  intro l
  induction l with
  | nil =>
    intro i0
    obtain ⟨h1, h2⟩ := tr_waitSeg env.aliveFinal cfg.tiles.length
      cfg.transfersPerDev (List.range cfg.nTransferDevs)
    exact ⟨h1, h2, finalWait_fnOk cfg env⟩
  | cons t rest ih =>
    intro i0
    by_cases hbad : badTile cfg t = true
    · rw [runGo, if_pos hbad]
      exact ⟨rfl, rfl, fun prev => rfl⟩
    · rw [runGo, if_neg hbad]
      obtain ⟨ih1, ih2, ih3⟩ := ih (i0 + 1)
      obtain ⟨ht1, ht2⟩ := tr_tile cfg env ckp i0
      refine ⟨?_, ?_, fun prev => ?_⟩
      · rw [traceAll_append, ht1, ht2, ih1]
        rfl
      · rw [List.foldl_append, ht2, ih2]
      · rw [traceAll_append, fn_tile cfg env ckp i0 prev, ih3]
        rfl

/-- C7: along the whole `run` trace, a transfer observed alive at a
tile's wait point is always waited on (`wait_until_finished`) before
that device's transfer is started again for the new tile; no
observed-alive transfer is left unwaited when `run` returns (the final
wait of lines 189-196 drains them); and every `transfer.start()`
immediately follows the assignment of the current tile's filename to
that transfer. -/
theorem claim7_transfer_wait_ordering (cfg : RunCfg) (env : RunEnv)
    (ckp : Nat) :
    traceAll trStep trOk [] (runTrace cfg env ckp).1 = true ∧
    (runTrace cfg env ckp).1.foldl trStep [] = [] ∧
    traceAll fnStep fnOk none (runTrace cfg env ckp).1 = true := by
  obtain ⟨h1, h2, h3⟩ := tr_runGo cfg env ckp cfg.tiles 0
  exact ⟨h1, h2, h3 none⟩

end ExaSpimControl
